import Mathlib

/-!
# kube-archiver: path mapper, change-capture translation and bolt indexer

A shallow embedding of `pkg/archiver/source/kv`, `pkg/archiver/source/etcd`,
`pkg/archiver/source` and `pkg/archiver/bolt`, with the properties of the
design document stated and settled over it.

Conventions.
* A Go `string` / `[]byte` is a list of byte values (`List Nat`); ASCII
  literals are written `ascii "pods"`.
* A Go `uint64` is a `Nat`; where the source does arithmetic the reduction
  modulo `2 ^ 64` is explicit.
* A run-time failure (nil dereference, slice out of range) is `Except.error`.
-/

namespace KubeArchiver

/-! ## Go values -/

/-- Go byte sequence (`string` or `[]byte`). -/
abbrev GoString := List Nat

/-- Bytes of an ASCII literal. -/
def ascii (s : String) : GoString := s.toList.map Char.toNat

/-- Run-time failures of the Go program. -/
inductive Panic where
  | sliceBounds
  | nilDeref
  | indexRange
  deriving DecidableEq, Repr

deriving instance DecidableEq for Except

/-- The byte `/`. -/
def slash : Nat := 47

/-- Index of the first occurrence of `sep` and the two sides of it, as
`strings.Index` with a one-byte separator finds them. -/
def cut (sep : Nat) : GoString → Option (GoString × GoString)
  | [] => none
  | c :: s =>
    if c = sep then some ([], s)
    else match cut sep s with
      | none => none
      | some (a, b) => some (c :: a, b)

/-- Go `strings.SplitN(s, sep, n)` for a one-byte separator and `n ≥ 0`:
at most `n` pieces, the last one being the unsplit remainder. -/
def SplitN (s : GoString) (sep : Nat) : Nat → List GoString
  | 0 => []
  | 1 => [s]
  | n + 2 =>
    match cut sep s with
    | none => [s]
    | some (a, rest) => a :: SplitN rest sep (n + 1)

/-! ## `kv.PrefixMap` -/

/-- Entry of the table: `struct { Namespaced bool; ResourceName string }`. -/
structure PrefixEntry where
  Namespaced : Bool
  ResourceName : GoString
  deriving DecidableEq, Repr

/-- Go `map[string]V` as an association list read by first match. -/
abbrev GoMap (V : Type) := List (GoString × V)

/-- Type `kv.PrefixMap`. -/
abbrev PrefixMap := GoMap (GoMap PrefixEntry)

/-- The four named results of `KeyForPath`. -/
structure KeyResult where
  resource : GoString
  namespace_ : GoString
  name : GoString
  ok : Bool
  deriving DecidableEq, Repr

/-- Method `PrefixMap.KeyForPath` (kv.go lines 16-50). The named result `ok` is
assigned by both map lookups (`base, ok := ...`, `t, ok := ...` reuse the
result variable), so the bare `return`s after the second lookup leave it
`true`. `path[1:]` fails on the empty string. -/
def PrefixMap.KeyForPath (m : PrefixMap) (path : GoString) : Except Panic KeyResult :=
  match path with
  | [] => .error .sliceBounds
  | _ :: tail =>
    match SplitN tail slash 4 with
    | pfx :: resource :: segments =>
      -- here `segments` holds segments[1:] of the source's re-sliced variable
      match m.lookup pfx with
      | none => .ok ⟨resource, [], [], false⟩
      | some base =>
        match base.lookup resource with
        | none => .ok ⟨resource, [], [], false⟩
        | some t =>
          if t.Namespaced then
            match segments with
            | [ns, nm] =>
              .ok ⟨if t.ResourceName.length > 0 then t.ResourceName else resource, ns, nm, true⟩
            | _ => .ok ⟨resource, [], [], true⟩
          else
            match segments with
            | [nm] =>
              .ok ⟨if t.ResourceName.length > 0 then t.ResourceName else resource, [], nm, true⟩
            | _ => .ok ⟨resource, [], [], true⟩
    | _ => .ok ⟨[], [], [], false⟩

/-- Table built in `start` (cmd/archiver.go lines 67-80). -/
def defaultPrefixMap : PrefixMap :=
  [ (ascii "openshift.io",
      [ (ascii "buildconfigs", ⟨true, []⟩),
        (ascii "deploymentconfigs", ⟨true, []⟩),
        (ascii "replicationcontrollers", ⟨true, []⟩),
        (ascii "imagestreams", ⟨true, []⟩),
        (ascii "images", ⟨false, []⟩) ]),
    (ascii "kubernetes.io",
      [ (ascii "namespaces", ⟨false, []⟩),
        (ascii "controllers", ⟨true, ascii "replicationcontrollers"⟩),
        (ascii "pods", ⟨true, []⟩) ]) ]

/-- Go index expression `s[i]`, which fails when `i` is out of range. -/
def goIndex {α : Type} (s : List α) (i : Nat) : Except Panic α :=
  match s.get? i with
  | some a => .ok a
  | none => .error Panic.indexRange

/-- Go slice expression `s[i:]`, which fails when `i` exceeds the length. -/
def goSliceFrom {α : Type} (s : List α) (i : Nat) : Except Panic (List α) :=
  if i ≤ s.length then .ok (s.drop i) else .error Panic.sliceBounds

/-- Method `PrefixMap.KeyForPath` (kv.go lines 16-50) statement by statement,
with every slice and index expression of the source evaluated by the
bounds-checked operations of Go. -/
def PrefixMap.KeyForPathIndexed (m : PrefixMap) (path : GoString) : Except Panic KeyResult :=
  match goSliceFrom path 1 with
  | .error e => .error e
  | .ok tail =>
    let segments := SplitN tail slash 4
    if segments.length < 2 then .ok ⟨[], [], [], false⟩
    else
      match goIndex segments 0 with
      | .error e => .error e
      | .ok pfx =>
        match goSliceFrom segments 1 with
        | .error e => .error e
        | .ok segments =>
          match goIndex segments 0 with
          | .error e => .error e
          | .ok resource =>
            match m.lookup pfx with
            | none => .ok ⟨resource, [], [], false⟩
            | some base =>
              match base.lookup resource with
              | none => .ok ⟨resource, [], [], false⟩
              | some t =>
                if t.Namespaced then
                  if segments.length ≠ 3 then .ok ⟨resource, [], [], true⟩
                  else
                    match goIndex segments 1, goIndex segments 2 with
                    | .ok ns, .ok nm =>
                      .ok ⟨if t.ResourceName.length > 0 then t.ResourceName else resource,
                        ns, nm, true⟩
                    | .error e, _ => .error e
                    | _, .error e => .error e
                else
                  if segments.length ≠ 2 then .ok ⟨resource, [], [], true⟩
                  else
                    match goIndex segments 1 with
                    | .ok nm =>
                      .ok ⟨if t.ResourceName.length > 0 then t.ResourceName else resource,
                        [], nm, true⟩
                    | .error e => .error e

/-! ## `source.ExtractUID` -/

/-- Function `source.ExtractUID` (source.go). `unmarshal` stands for
`json.Unmarshal(value, &obj)` of the standard library followed by reading
`obj.Metadata.UID`: `none` when it returns an error. -/
def ExtractUID (unmarshal : GoString → Option GoString) (value : GoString) : GoString × Bool :=
  match unmarshal value with
  | none => ([], false)
  | some uid => if uid.length > 0 then (uid, true) else ([], false)

/-! ## `archiver.Interface` -/

/-- Type `archiver.Interface`: a driver over a state `σ` whose calls return a
Go `error` (`none` is `nil`) and the next state. -/
structure Interface (σ ε : Type) where
  Create : GoString → GoString → GoString → GoString → Nat → GoString → σ → Option ε × σ
  Update : GoString → GoString → GoString → GoString → Nat → GoString → σ → Option ε × σ
  Delete : GoString → GoString → GoString → GoString → Nat → σ → Option ε × σ

/-- One call on the driver. -/
inductive Call where
  | Create (resource namespace_ name uid : GoString) (index : Nat) (current : GoString)
  | Update (resource namespace_ name uid : GoString) (index : Nat) (current : GoString)
  | Delete (resource namespace_ name uid : GoString) (index : Nat)
  deriving DecidableEq, Repr

/-- Type `archiver.LogArchiver` (interfaces.go): every call writes one log
line and returns `nil`; the state is the log. -/
def LogArchiver : Interface (List Call) Empty where
  Create r ns n uid i cur log := (none, log ++ [Call.Create r ns n uid i cur])
  Update r ns n uid i cur log := (none, log ++ [Call.Update r ns n uid i cur])
  Delete r ns n uid i log := (none, log ++ [Call.Delete r ns n uid i])

/-! ## `etcd.Source` -/

/-- Fields of `etcd.Node` (go-etcd) that the source reads. -/
structure etcd.Node where
  Key : GoString
  Value : GoString
  CreatedIndex : Nat
  ModifiedIndex : Nat
  deriving DecidableEq, Repr

/-- Fields of `etcd.Response` (go-etcd) that the source reads; an absent
node is a nil pointer. -/
structure etcd.Response where
  Action : GoString
  Node : Option etcd.Node
  PrevNode : Option etcd.Node
  EtcdIndex : Nat
  deriving DecidableEq, Repr

/-- Errors that `OnEvent` returns: its three `fmt.Errorf` messages, an error
of the driver returned as it is, and the composite of `NewAggregate`. -/
inductive Err (ε : Type) where
  | noPreviousNode (action : GoString) (etcdIndex : Nat)
  | noNode (action : GoString) (index : Nat)
  | unrecognized (action : GoString) (etcdIndex : Nat)
  | driver (e : ε)
  | aggregate (errs : List ε)
  deriving DecidableEq, Repr

/-- Function `errutil.NewAggregate`: `nil` for the empty list. -/
def NewAggregate {ε : Type} (errs : List ε) : Option (Err ε) :=
  if errs.length = 0 then none else some (Err.aggregate errs)

/-- Go `append(errs, err)` guarded by `err != nil`. -/
def appendErr {ε : Type} (errs : List ε) : Option ε → List ε
  | none => errs
  | some e => errs ++ [e]

/-- Type `etcd.Source` without its client: the driver and the mapper
(`kv.KeyMapper`), and the JSON decoder used by `ExtractUID`. -/
structure Source (σ ε : Type) where
  archiver : Interface σ ε
  mapper : GoString → Except Panic KeyResult
  unmarshal : GoString → Option GoString

/-- The value `(index, err)` that `OnEvent` returns, with the driver state. -/
abbrev EventResult (σ ε : Type) := Except Panic ((Nat × Option (Err ε)) × σ)

/-- Second `switch` of `Source.OnEvent` (etcd.go lines 101-149), after the
mapper accepted the path. -/
def Source.translate {σ ε : Type} (s : Source σ ε) (resp : etcd.Response) (index : Nat)
    (resource namespace_ name : GoString) (st : σ) : (Nat × Option (Err ε)) × σ :=
  if resp.Action ∈ [ascii "expire", ascii "delete", ascii "compareAndDelete"] then
    match resp.PrevNode, resp.Node with
    | some prevNode, some node =>
      let uid := (ExtractUID s.unmarshal prevNode.Value).1
      let r := s.archiver.Delete resource namespace_ name uid node.ModifiedIndex st
      ((index, r.1.map Err.driver), r.2)
    | _, _ => ((index, some (Err.noPreviousNode resp.Action resp.EtcdIndex)), st)
  else if resp.Action ∈ [ascii "create", ascii "set", ascii "compareAndSwap"] then
    match resp.PrevNode, resp.Node with
    | some prevNode, some node =>
      let prevValue := prevNode.Value
      let uid := (ExtractUID s.unmarshal prevValue).1
      let r1 :=
        if prevNode.CreatedIndex ≠ prevNode.ModifiedIndex then
          s.archiver.Update resource namespace_ name uid prevNode.ModifiedIndex prevValue st
        else
          s.archiver.Create resource namespace_ name uid prevNode.ModifiedIndex prevValue st
      let errs := appendErr [] r1.1
      let value := node.Value
      let uid := (ExtractUID s.unmarshal value).1
      let r2 := s.archiver.Update resource namespace_ name uid node.ModifiedIndex value r1.2
      let errs := appendErr errs r2.1
      ((index, NewAggregate errs), r2.2)
    | none, some node =>
      let value := node.Value
      let uid := (ExtractUID s.unmarshal value).1
      let r := s.archiver.Create resource namespace_ name uid node.CreatedIndex value st
      ((index, r.1.map Err.driver), r.2)
    | _, none => ((index, some (Err.noNode resp.Action index)), st)
  else if resp.Action = ascii "get" then
    ((index, none), st)
  else
    ((index, some (Err.unrecognized resp.Action resp.EtcdIndex)), st)

/-- Method `Source.OnEvent` (etcd.go lines 82-150). In the second case of the
first `switch` the source reads `resp.Node.ModifiedIndex` although
`resp.Node` is nil there. -/
def Source.OnEvent {σ ε : Type} (s : Source σ ε) (resp : etcd.Response) (st : σ) :
    EventResult σ ε :=
  match resp.Node, resp.PrevNode with
  | none, none => .ok ((resp.EtcdIndex, none), st)
  | none, some _ => .error Panic.nilDeref
  | some node, _ =>
    let path := node.Key
    let index := node.ModifiedIndex
    match s.mapper path with
    | .error p => .error p
    | .ok k =>
      if k.ok = false then .ok ((index, none), st)
      else .ok (s.translate resp index k.resource k.namespace_ k.name st)

/-! ## `Source.Run` as a state machine -/

/-- Go `uint64` subtraction. -/
def sub64 (a b : Nat) : Nat := (a + 2 ^ 64 - b % 2 ^ 64) % 2 ^ 64

/-- Go `uint64` addition. -/
def add64 (a b : Nat) : Nat := (a + b) % 2 ^ 64

/-- Go `uint64` multiplication. -/
def mul64 (a b : Nat) : Nat := (a * b) % 2 ^ 64

/-- Constant `snapshotSize` of `Run`. -/
def snapshotSize : Nat := 1000

/-- Variables shared by the two closures of `Run`. -/
structure RunState where
  recentIndex : Nat
  snapshotWindow : Nat
  lowestIndex : Nat
  deriving DecidableEq, Repr

/-- State of `Run` after the initial `Get` answered with `etcdIndex`
(etcd.go lines 33-42, 60). -/
def Run.init (etcdIndex : Nat) : RunState :=
  { recentIndex :=
      if etcdIndex > snapshotSize then add64 (sub64 etcdIndex snapshotSize) 1 else 1
    snapshotWindow := snapshotSize
    lowestIndex := 0 }

/-- How a call of `client.Watch` ends. -/
inductive WatchEnd where
  | noError
  | etcdError (index : Nat)
  | otherError
  deriving DecidableEq, Repr

/-- Index the watcher closure passes to `client.Watch` (line 49). -/
def Run.watchFrom (st : RunState) : Nat := st.recentIndex

/-- One round of the watcher closure (etcd.go lines 46-58) after `Watch`
ended. -/
def Run.watcher (st : RunState) : WatchEnd → RunState
  | .noError => { st with snapshotWindow := snapshotSize }
  | .etcdError index =>
    let w := mul64 st.snapshotWindow 9 / 10
    { st with snapshotWindow := w, recentIndex := sub64 index w }
  | .otherError =>
    { st with snapshotWindow := mul64 st.snapshotWindow 9 / 10 }

/-- What the inner loop of the consumer does next. -/
inductive LoopNext where
  | continue_
  | break_
  deriving DecidableEq, Repr

/-- One iteration of the consumer loop body (etcd.go lines 67-75) on the
value `OnEvent` returned. -/
def Run.consumer {ε : Type} (st : RunState) (index : Nat) (err : Option (Err ε)) :
    RunState × LoopNext :=
  match err with
  | some _ => (st, LoopNext.continue_)
  | none =>
    if index = 0 then (st, LoopNext.break_)
    else ({ st with lowestIndex := index }, LoopNext.continue_)

/-- One event through the consumer: `OnEvent`, then the loop body. -/
def Run.onResponse {σ ε : Type} (s : Source σ ε) (st : RunState) (resp : etcd.Response)
    (a : σ) : Except Panic ((RunState × LoopNext) × σ) :=
  match s.OnEvent resp a with
  | .error p => .error p
  | .ok ((index, err), a1) => .ok (Run.consumer st index err, a1)

/-! ## The embedded store (`github.com/boltdb/bolt`) -/

/-- Go `bytes.Compare(a, b) < 0`: the order of the keys of a bucket. -/
def bytesLt : GoString → GoString → Bool
  | [], [] => false
  | [], _ :: _ => true
  | _ :: _, [] => false
  | a :: x, b :: y => decide (a < b) || (a == b && bytesLt x y)

/-- Go `bytes.HasPrefix(k, p)`. -/
def HasPrefix : GoString → GoString → Bool
  | _, [] => true
  | [], _ :: _ => false
  | a :: k, b :: p => a == b && HasPrefix k p

/-- A bucket of the store: its key/value pairs in key order. -/
abbrev Bucket := List (GoString × GoString)

/-- Keys of a bucket in iteration order. -/
def Bucket.keys (b : Bucket) : List GoString := b.map Prod.fst

/-- Well-formed bucket: keys strictly ascending in byte order. -/
def Bucket.Sorted (b : Bucket) : Prop := b.keys.Pairwise (fun x y => bytesLt x y = true)

instance (b : Bucket) : Decidable b.Sorted := by
  unfold Bucket.Sorted; infer_instance

/-- Errors of `Bucket.Put`. -/
inductive BoltErr where
  | ErrKeyRequired
  | ErrKeyTooLarge
  | ErrValueTooLarge
  deriving DecidableEq, Repr

/-- Constant `bolt.MaxKeySize`. -/
def MaxKeySize : Nat := 32768

/-- Constant `bolt.MaxValueSize`, `(1 << 31) - 2`. -/
def MaxValueSize : Nat := 2147483646

/-- Value stored under a key (`Bucket.Get`), `none` for an absent key. -/
def Bucket.Get (b : Bucket) (k : GoString) : Option GoString := b.lookup k

/-- Ordered insertion that replaces the value of a key already present. -/
def Bucket.insert : Bucket → GoString → GoString → Bucket
  | [], k, v => [(k, v)]
  | (k1, v1) :: b, k, v =>
    if bytesLt k k1 then (k, v) :: (k1, v1) :: b
    else if k = k1 then (k, v) :: b
    else (k1, v1) :: Bucket.insert b k v

/-- Method `Bucket.Put` in a writable transaction: refuses an empty key and
oversized keys and values, otherwise sets the value of the key. A nil value
is stored as the empty value. -/
def Bucket.Put (b : Bucket) (k v : GoString) : Except BoltErr Bucket :=
  if k.length = 0 then .error BoltErr.ErrKeyRequired
  else if k.length > MaxKeySize then .error BoltErr.ErrKeyTooLarge
  else if v.length > MaxValueSize then .error BoltErr.ErrValueTooLarge
  else .ok (b.insert k v)

/-- Method `Bucket.Delete` in a writable transaction on a bucket without
nested buckets: removes the key if present and returns nil. -/
def Bucket.Delete (b : Bucket) (k : GoString) : Bucket :=
  b.filter (fun e => decide (e.1 ≠ k))

/-- Method `Cursor.Seek`: the pairs from the first key that is not below
`seek` on, in order; the cursor then walks this list with `Next`. -/
def Bucket.Seek (b : Bucket) (seek : GoString) : Bucket :=
  b.dropWhile (fun e => bytesLt e.1 seek)

/-! ## Tuple keys (`pkg/archiver/tuple`) -/

/-- Element of a `tuple.Tuple`: the source packs `string`, `uint64` and
`[]byte` values. -/
inductive Elem where
  | str (s : GoString)
  | int (n : Nat)
  | bytes (b : GoString)
  deriving DecidableEq, Repr

/-- Type `tuple.Tuple`. -/
abbrev Tuple := List Elem

/-- An element the Go types admit: a `uint64` is below `2 ^ 64`. -/
def Elem.WF : Elem → Prop
  | .int n => n < 2 ^ 64
  | _ => True

instance (e : Elem) : Decidable e.WF := by
  cases e <;> unfold Elem.WF <;> infer_instance

/-- A tuple of well-formed elements. -/
def Tuple.WF (t : Tuple) : Prop := ∀ e ∈ t, e.WF

/-- Big-endian bytes of the low `8 * k` bits of `n`. -/
def bigEndian : Nat → Nat → GoString
  | 0, _ => []
  | k + 1, n => bigEndian k (n / 256) ++ [n % 256]

/-- A byte string made self-delimiting: every byte `c` becomes `1, c` and a
`0` closes the string. -/
def encBody : GoString → GoString
  | [] => [0]
  | c :: s => 1 :: c :: encBody s

/-- Encoding of one element: a type tag, then the body. -/
def encElem : Elem → GoString
  | .bytes b => 1 :: encBody b
  | .str s => 2 :: encBody s
  | .int n => 21 :: bigEndian 8 n

/-- Modelled from the spec: `tuple.Tuple.Pack` of package
`pkg/archiver/tuple`, whose source is absent. The spec (4.1, 6) asks for a
deterministic, type-tagged, self-delimiting and order-preserving encoding in
which an integer is a tag followed by its 8 big-endian bytes and a string
never encodes like an integer. -/
def tuplePack : Tuple → GoString
  | [] => []
  | e :: t => encElem e ++ tuplePack t

/-- Codec assumption: distinct well-formed tuples have distinct encodings. -/
def PackInjective (pack : Tuple → GoString) : Prop :=
  ∀ t1 t2 : Tuple, t1.WF → t2.WF → pack t1 = pack t2 → t1 = t2

/-- Codec assumption: the encoding of a tuple is a byte-prefix of the
encoding of another exactly when the tuple is an element-wise prefix. -/
def SelfDelimiting (pack : Tuple → GoString) : Prop :=
  ∀ t1 t2 : Tuple, t1.WF → t2.WF → (HasPrefix (pack t2) (pack t1) = true ↔ t1 <+: t2)

/-- Codec assumption: tuples that differ in a final integer are ordered as
the integers are. -/
def OrderPreserving (pack : Tuple → GoString) : Prop :=
  ∀ (t : Tuple) (i j : Nat), t.WF → i < 2 ^ 64 → j < 2 ^ 64 →
    (bytesLt (pack (t ++ [Elem.int i])) (pack (t ++ [Elem.int j])) = true ↔ i < j)

/-- Codec assumption: the type tags of integers and strings differ, so the
encoding of a tuple that starts with a string is never a byte-prefix of the
encoding of a tuple that starts with an integer. -/
def TagsDiffer (pack : Tuple → GoString) : Prop :=
  ∀ (i : Nat) (s : GoString) (t1 t2 : Tuple),
    HasPrefix (pack (Elem.int i :: t1)) (pack (Elem.str s :: t2)) = false

/-! ## `bolt.BoltArchiver` -/

/-- Function `keyByIndex` (bolt.go line 162). -/
def keyByIndex (resource namespace_ name : GoString) (index : Nat) (update : Nat) : Tuple :=
  [Elem.int index, Elem.str resource, Elem.str namespace_, Elem.str name, Elem.bytes [update]]

/-- Function `keyByType` (bolt.go line 166). -/
def keyByType (resource namespace_ name : GoString) (index : Nat) : Tuple :=
  [Elem.str resource, Elem.str namespace_, Elem.str name, Elem.int index]

/-- Loop of `deleteRange` after `Seek` (bolt.go lines 154-158): walks the
cursor while the key has the given leading bytes and deletes each key from
the bucket. The cursor visits the pairs that `Seek` found, in order; a
`Delete` does not move it. -/
def deleteLoop (p : GoString) : Bucket → Bucket → Bucket
  | [], b => b
  | (k, _) :: rest, b => if HasPrefix k p then deleteLoop p rest (b.Delete k) else b

/-- Function `deleteRange` (bolt.go lines 152-160). -/
def deleteRange (b : Bucket) (p : GoString) : Bucket :=
  deleteLoop p (b.Seek p) b

section Archiver

variable (pack : Tuple → GoString)

/-- Body of the transaction of `BoltArchiver.Create` (bolt.go lines 81-101). -/
def BoltArchiver.Create (b : Bucket) (resource namespace_ name uid : GoString) (index : Nat)
    (current : GoString) : Except BoltErr Bucket :=
  match b.Put (pack (keyByIndex resource namespace_ name index 0)) current with
  | .error e => .error e
  | .ok b1 =>
    match b1.Put (pack (keyByType resource namespace_ name index)) [] with
    | .error e => .error e
    | .ok b2 =>
      if uid.length ≠ 0 then b2.Put (pack [Elem.str uid]) (pack [Elem.int index])
      else .ok b2

/-- Body of the transaction of `BoltArchiver.Update` (bolt.go lines 103-127). -/
def BoltArchiver.Update (b : Bucket) (resource namespace_ name uid : GoString) (index : Nat)
    (current : GoString) : Except BoltErr Bucket :=
  match b.Put (pack (keyByIndex resource namespace_ name index 1)) current with
  | .error e => .error e
  | .ok b1 =>
    let b2 := deleteRange b1 (pack ((keyByType resource namespace_ name index).take 2))
    match b2.Put (pack (keyByType resource namespace_ name index)) [] with
    | .error e => .error e
    | .ok b3 =>
      if uid.length ≠ 0 then b3.Put (pack [Elem.str uid]) (pack [Elem.int index])
      else .ok b3

/-- Body of the transaction of `BoltArchiver.Delete` (bolt.go lines 129-150). -/
def BoltArchiver.Delete (b : Bucket) (resource namespace_ name uid : GoString) (index : Nat) :
    Except BoltErr Bucket :=
  match b.Put (pack (keyByIndex resource namespace_ name index 2)) [] with
  | .error e => .error e
  | .ok b1 =>
    let b2 := deleteRange b1 (pack ((keyByType resource namespace_ name index).take 2))
    if uid.length ≠ 0 then .ok (b2.Delete (pack [Elem.str uid]))
    else .ok b2

/-- Method `db.Update`: commits the body's writes when it returns nil and
rolls back, returning the error, otherwise. -/
def dbUpdate (b : Bucket) (body : Except BoltErr Bucket) : Option BoltErr × Bucket :=
  match body with
  | .ok b1 => (none, b1)
  | .error e => (some e, b)

/-- Type `bolt.BoltArchiver` as a driver over the `events` bucket. -/
def BoltArchiver : Interface Bucket BoltErr where
  Create r ns n uid i cur b := dbUpdate b (BoltArchiver.Create pack b r ns n uid i cur)
  Update r ns n uid i cur b := dbUpdate b (BoltArchiver.Update pack b r ns n uid i cur)
  Delete r ns n uid i b := dbUpdate b (BoltArchiver.Delete pack b r ns n uid i)

/-- One operation on the archive. -/
inductive Op where
  | Create (resource namespace_ name uid : GoString) (index : Nat) (current : GoString)
  | Update (resource namespace_ name uid : GoString) (index : Nat) (current : GoString)
  | Delete (resource namespace_ name uid : GoString) (index : Nat)
  deriving DecidableEq, Repr

/-- Archive state after one operation, or the error that aborted it. -/
def Op.apply (b : Bucket) : Op → Except BoltErr Bucket
  | .Create r ns n uid i cur => BoltArchiver.Create pack b r ns n uid i cur
  | .Update r ns n uid i cur => BoltArchiver.Update pack b r ns n uid i cur
  | .Delete r ns n uid i => BoltArchiver.Delete pack b r ns n uid i

/-- Archive state after a sequence of operations that all succeed. -/
def runOps (b : Bucket) : List Op → Except BoltErr Bucket
  | [] => .ok b
  | o :: os =>
    match o.apply pack b with
    | .error e => .error e
    | .ok b1 => runOps b1 os

end Archiver

/-- The `(resource, namespace, name)` an operation is about. -/
def Op.target : Op → GoString × GoString × GoString
  | .Create r ns n _ _ _ => (r, ns, n)
  | .Update r ns n _ _ _ => (r, ns, n)
  | .Delete r ns n _ _ => (r, ns, n)

/-- The index an operation carries. -/
def Op.index : Op → Nat
  | .Create _ _ _ _ i _ => i
  | .Update _ _ _ _ i _ => i
  | .Delete _ _ _ _ i => i

/-- Whether the operation is a `Create` or an `Update`. -/
def Op.isWrite : Op → Bool
  | .Delete _ _ _ _ _ => false
  | _ => true

/-- Whether the operation is an `Update`. -/
def Op.isUpdate : Op → Bool
  | .Update _ _ _ _ _ _ => true
  | _ => false

/-- The uid an operation carries. -/
def Op.uid : Op → GoString
  | .Create _ _ _ uid _ _ => uid
  | .Update _ _ _ uid _ _ => uid
  | .Delete _ _ _ uid _ => uid

/-- The event-log tuple an operation writes: `keyByIndex` with the byte 0, 1
or 2 of `Create`, `Update` or `Delete`. -/
def Op.logTuple : Op → Tuple
  | .Create r ns n _ i _ => keyByIndex r ns n i 0
  | .Update r ns n _ i _ => keyByIndex r ns n i 1
  | .Delete r ns n _ i => keyByIndex r ns n i 2

/-- The value an operation stores under its event-log key: the payload, or
the empty value for a `Delete`. -/
def Op.logValue : Op → GoString
  | .Create _ _ _ _ _ cur => cur
  | .Update _ _ _ _ _ cur => cur
  | .Delete _ _ _ _ _ => []

/-- Whether the operation runs `deleteRange`: an `Update` or a `Delete`. -/
def Op.purges : Op → Bool
  | .Create _ _ _ _ _ _ => false
  | _ => true

/-- Keys a cursor visits in a scan of the given leading bytes: `Seek`, then
`Next` while `bytes.HasPrefix` holds (the loop shape of `deleteRange`). -/
def prefixScan (b : Bucket) (p : GoString) : List GoString :=
  Bucket.keys ((b.Seek p).takeWhile (fun e => HasPrefix e.1 p))

/-- Keys of the versions index under `(resource, namespace, name)`. -/
def versionsScan (pack : Tuple → GoString) (b : Bucket) (resource namespace_ name : GoString) :
    List GoString :=
  prefixScan b (pack [Elem.str resource, Elem.str namespace_, Elem.str name])

/-- Where a key of the archive comes from: it is an event-log key, a key
`(uid)`, or the versions key written by a `Create` or `Update` of the given
operations. -/
def KeyOrigin (pack : Tuple → GoString) (ops : List Op) (k : GoString) : Prop :=
  (∃ (r ns n : GoString) (i u : Nat), i < 2 ^ 64 ∧ k = pack (keyByIndex r ns n i u)) ∨
  (∃ uid : GoString, k = pack [Elem.str uid]) ∨
  (∃ o ∈ ops, o.isWrite = true ∧ o.index < 2 ^ 64 ∧
    k = pack (keyByType o.target.1 o.target.2.1 o.target.2.2 o.index))

/-! ## Instrumentation and sample data -/

/-- A driver that also keeps the list of the calls made on it, in order;
errors and state are those of the driver it wraps. -/
def recording {σ ε : Type} (A : Interface σ ε) : Interface (σ × List Call) ε where
  Create r ns n uid i cur st :=
    ((A.Create r ns n uid i cur st.1).1,
      ((A.Create r ns n uid i cur st.1).2, st.2 ++ [Call.Create r ns n uid i cur]))
  Update r ns n uid i cur st :=
    ((A.Update r ns n uid i cur st.1).1,
      ((A.Update r ns n uid i cur st.1).2, st.2 ++ [Call.Update r ns n uid i cur]))
  Delete r ns n uid i st :=
    ((A.Delete r ns n uid i st.1).1,
      ((A.Delete r ns n uid i st.1).2, st.2 ++ [Call.Delete r ns n uid i]))

/-- Payload `{"metadata":{"uid":"U1"}}` of the end-to-end scenarios. -/
def payloadU1 : GoString := ascii "\x7b\"metadata\":\x7b\"uid\":\"U1\"\x7d\x7d"

/-- Payload `{"metadata":{"uid":"U1"},"v":2}` of the end-to-end scenarios. -/
def payloadU1v2 : GoString := ascii "\x7b\"metadata\":\x7b\"uid\":\"U1\"\x7d,\"v\":2\x7d"

/-- A decoder that knows the two sample payloads and fails on anything else. -/
def sampleUnmarshal (value : GoString) : Option GoString :=
  if value = payloadU1 ∨ value = payloadU1v2 then some (ascii "U1") else none

/-- A source over the logging driver with the default table. -/
def sampleSource : Source (List Call) Empty :=
  { archiver := LogArchiver
    mapper := defaultPrefixMap.KeyForPath
    unmarshal := sampleUnmarshal }

/-- A source over the bolt driver, with calls recorded, and the default table. -/
def boltSource : Source (Bucket × List Call) BoltErr :=
  { archiver := recording (BoltArchiver tuplePack)
    mapper := defaultPrefixMap.KeyForPath
    unmarshal := sampleUnmarshal }

/-- Key of the pod `p1` of the end-to-end scenarios. -/
def podKey : GoString := ascii "/kubernetes.io/pods/default/p1"

/-- Node of scenario 1: `p1` created at index 10. -/
def node10 : etcd.Node := ⟨podKey, payloadU1, 10, 10⟩

/-- Node of scenario 2: `p1` modified at index 15. -/
def node15 : etcd.Node := ⟨podKey, payloadU1v2, 10, 15⟩

/-- Node of scenario 4: `p1` deleted at index 25. -/
def node25 : etcd.Node := ⟨podKey, [], 10, 25⟩

/-- A node created at 10 and last modified at 12, seen without a previous
node. -/
def node12 : etcd.Node := ⟨podKey, payloadU1, 10, 12⟩

/-- Scenario 1, create only. -/
def eventCreate : etcd.Response := ⟨ascii "create", some node10, none, 10⟩

/-- Scenario 2, update with previous. -/
def eventSet : etcd.Response := ⟨ascii "set", some node15, some node10, 15⟩

/-- Scenario 4, delete. -/
def eventDelete : etcd.Response := ⟨ascii "delete", some node25, some node15, 25⟩

/-- A delete event that lacks its previous node. -/
def eventDeleteNoPrev : etcd.Response := ⟨ascii "delete", some node25, none, 25⟩

/-- A delete event that carries only the previous node. -/
def eventPrevOnly : etcd.Response := ⟨ascii "delete", none, some node15, 25⟩

/-- Two creates of `p1` with decreasing indices, as a watch that was
repositioned backwards replays them. -/
def opsCreateBackwards : List Op :=
  [ Op.Create (ascii "pods") (ascii "default") (ascii "p1") (ascii "U1") 10 payloadU1,
    Op.Create (ascii "pods") (ascii "default") (ascii "p1") (ascii "U1") 5 payloadU1 ]

/-- Operations of scenarios 1 and 2 followed by the create of another pod. -/
def opsScenario : List Op :=
  [ Op.Create (ascii "pods") (ascii "default") (ascii "p1") (ascii "U1") 10 payloadU1,
    Op.Create (ascii "pods") (ascii "default") (ascii "p1") (ascii "U1") 10 payloadU1,
    Op.Update (ascii "pods") (ascii "default") (ascii "p1") (ascii "U1") 15 payloadU1v2,
    Op.Create (ascii "pods") (ascii "default") (ascii "p2") [] 17 [] ]

/-- Node of scenario 5: a key outside the default table. -/
def nodeWidget : etcd.Node := ⟨ascii "/unknown.io/widgets/x", payloadU1, 30, 30⟩

/-- Scenario 5, unmapped path. -/
def eventWidget : etcd.Response := ⟨ascii "create", some nodeWidget, none, 30⟩

/-- A driver without state whose `Create` always fails with `1` and whose
`Update` always fails with `2`. -/
def failingArchiver : Interface Unit Nat where
  Create _ _ _ _ _ _ st := (some 1, st)
  Update _ _ _ _ _ _ st := (some 2, st)
  Delete _ _ _ _ _ st := (none, st)

/-- Life of `p1` (uid `U1`) with the create of `p2` (uid `U2`) in between. -/
def opsLifecycle : List Op :=
  [ Op.Create (ascii "pods") (ascii "default") (ascii "p1") (ascii "U1") 10 payloadU1,
    Op.Update (ascii "pods") (ascii "default") (ascii "p1") (ascii "U1") 15 payloadU1v2,
    Op.Create (ascii "pods") (ascii "other") (ascii "p2") (ascii "U2") 17 [],
    Op.Delete (ascii "pods") (ascii "default") (ascii "p1") (ascii "U1") 25 ]

/-- What the mapper returns for `podKey`. -/
def podResult : KeyResult := ⟨ascii "pods", ascii "default", ascii "p1", true⟩

/-! # Properties -/

/-! ## Byte order and leading bytes -/

theorem bytesLt_irrefl (a : GoString) : bytesLt a a = false := by
  induction a with
  | nil => rfl
  | cons x a ih => simp [bytesLt, ih]

theorem bytesLt_trans {a b c : GoString} (h1 : bytesLt a b = true) (h2 : bytesLt b c = true) :
    bytesLt a c = true := by
  induction a generalizing b c with
  | nil =>
    cases b with
    | nil => simp [bytesLt] at h1
    | cons y b =>
      cases c with
      | nil => simp [bytesLt] at h2
      | cons z c => simp [bytesLt]
  | cons x a ih =>
    cases b with
    | nil => simp [bytesLt] at h1
    | cons y b =>
      cases c with
      | nil => simp [bytesLt] at h2
      | cons z c =>
        simp only [bytesLt, Bool.or_eq_true, Bool.and_eq_true, decide_eq_true_eq,
          beq_iff_eq] at h1 h2 ⊢
        rcases h1 with h1 | ⟨h1, h1r⟩
        · rcases h2 with h2 | ⟨h2, _⟩
          · left; omega
          · left; omega
        · rcases h2 with h2 | ⟨h2, h2r⟩
          · left; omega
          · right; exact ⟨by omega, ih h1r h2r⟩

theorem bytesLt_total {a b : GoString} (h : bytesLt a b = false) (hne : a ≠ b) :
    bytesLt b a = true := by
  induction a generalizing b with
  | nil =>
    cases b with
    | nil => exact absurd rfl hne
    | cons y b => simp [bytesLt] at h
  | cons x a ih =>
    cases b with
    | nil => simp [bytesLt]
    | cons y b =>
      simp only [bytesLt, Bool.or_eq_false_iff, Bool.and_eq_false_iff, decide_eq_false_iff_not,
        Bool.or_eq_true, Bool.and_eq_true, decide_eq_true_eq, beq_iff_eq, beq_eq_false_iff_ne,
        ne_eq] at h ⊢
      obtain ⟨hxy, h2⟩ := h
      by_cases hlt : y < x
      · left; exact hlt
      · right
        have hxy2 : y = x := by omega
        subst hxy2
        refine ⟨rfl, ?_⟩
        rcases h2 with h2 | h2
        · exact absurd rfl h2
        · exact ih h2 (fun hab => hne (by rw [hab]))

theorem bytesLt_ne {a b : GoString} (h : bytesLt a b = true) : a ≠ b := by
  intro hab
  rw [hab, bytesLt_irrefl] at h
  exact Bool.noConfusion h

theorem hasPrefix_iff (k p : GoString) : HasPrefix k p = true ↔ p <+: k := by
  induction p generalizing k with
  | nil => simp [HasPrefix]
  | cons y p ih =>
    cases k with
    | nil => simp [HasPrefix]
    | cons x k =>
      simp only [HasPrefix, Bool.and_eq_true, beq_iff_eq, ih, List.cons_prefix_cons]
      constructor
      · rintro ⟨h1, h2⟩; exact ⟨h1.symm, h2⟩
      · rintro ⟨h1, h2⟩; exact ⟨h1.symm, h2⟩

theorem hasPrefix_append (p x : GoString) : HasPrefix (p ++ x) p = true := by
  rw [hasPrefix_iff]; exact List.prefix_append p x

/-- A key that starts with `p` is not below `p`. -/
theorem not_lt_of_hasPrefix {k p : GoString} (h : HasPrefix k p = true) :
    bytesLt k p = false := by
  induction p generalizing k with
  | nil => cases k <;> simp [bytesLt]
  | cons y p ih =>
    cases k with
    | nil => simp [HasPrefix] at h
    | cons x k =>
      simp only [HasPrefix, Bool.and_eq_true, beq_iff_eq] at h
      obtain ⟨h1, h2⟩ := h
      subst h1
      simp [bytesLt, ih h2]

/-- Keys that start with `p` are contiguous above `p`: between `p` and a key
that starts with `p` every key starts with `p`. -/
theorem hasPrefix_of_between {h e p : GoString} (h1 : bytesLt h p = false)
    (h2 : bytesLt h e = true) (h3 : HasPrefix e p = true) : HasPrefix h p = true := by
  induction p generalizing h e with
  | nil => cases h <;> simp [HasPrefix]
  | cons y p ih =>
    cases e with
    | nil => simp [HasPrefix] at h3
    | cons z e =>
      cases h with
      | nil => simp [bytesLt] at h1
      | cons x h =>
        simp only [HasPrefix, Bool.and_eq_true, beq_iff_eq] at h3 ⊢
        obtain ⟨hzy, h3⟩ := h3
        subst hzy
        simp only [bytesLt, Bool.or_eq_false_iff, Bool.and_eq_false_iff, decide_eq_false_iff_not,
          Bool.or_eq_true, Bool.and_eq_true, decide_eq_true_eq, beq_iff_eq, beq_eq_false_iff_ne,
          ne_eq] at h1 h2
        obtain ⟨hnlt, h1⟩ := h1
        rcases h2 with h2 | ⟨hxz, h2⟩
        · exact absurd h2 hnlt
        · subst hxz
          rcases h1 with h1 | h1
          · exact absurd rfl h1
          · exact ⟨rfl, ih h1 h2 h3⟩

/-! ## The bucket -/

theorem get_nil (k : GoString) : Bucket.Get [] k = none := rfl

theorem get_cons (k1 v1 : GoString) (b : Bucket) (k : GoString) :
    Bucket.Get ((k1, v1) :: b) k = if k = k1 then some v1 else Bucket.Get b k := by
  unfold Bucket.Get
  rw [List.lookup_cons]
  by_cases h : k = k1
  · simp [h]
  · have : (k == k1) = false := by simpa using h
    simp [h, this]

theorem get_insert (b : Bucket) (k v k' : GoString) :
    Bucket.Get (Bucket.insert b k v) k' = if k' = k then some v else Bucket.Get b k' := by
  induction b with
  | nil => unfold Bucket.insert; rw [get_cons]
  | cons e b ih =>
    obtain ⟨k1, v1⟩ := e
    unfold Bucket.insert
    by_cases h1 : bytesLt k k1 = true
    · rw [if_pos h1, get_cons]
    · rw [if_neg h1]
      by_cases h2 : k = k1
      · subst h2
        rw [if_pos rfl, get_cons, get_cons]
        by_cases h3 : k' = k <;> simp [h3]
      · rw [if_neg h2, get_cons, get_cons, ih]
        by_cases h3 : k' = k
        · subst h3; simp [h2]
        · simp [h3]

theorem mem_keys_iff (b : Bucket) (k : GoString) : k ∈ b.keys ↔ Bucket.Get b k ≠ none := by
  induction b with
  | nil => simp [Bucket.keys, get_nil]
  | cons e b ih =>
    obtain ⟨k1, v1⟩ := e
    have ih2 : k ∈ List.map Prod.fst b ↔ Bucket.Get b k ≠ none := ih
    simp only [Bucket.keys, List.map_cons, List.mem_cons, get_cons, ih2]
    by_cases h : k = k1 <;> simp [h]

theorem mem_keys_insert {b : Bucket} {k v x : GoString}
    (h : x ∈ (Bucket.insert b k v).keys) : x = k ∨ x ∈ b.keys := by
  rw [mem_keys_iff, get_insert] at h
  by_cases hx : x = k
  · exact Or.inl hx
  · right; rw [mem_keys_iff]; simpa [hx] using h

theorem sorted_cons {k v : GoString} {b : Bucket} :
    Bucket.Sorted ((k, v) :: b) ↔ (∀ x ∈ b.keys, bytesLt k x = true) ∧ Bucket.Sorted b := by
  simp [Bucket.Sorted, Bucket.keys, List.pairwise_cons]

theorem sorted_insert {b : Bucket} (hb : b.Sorted) (k v : GoString) :
    (Bucket.insert b k v).Sorted := by
  induction b with
  | nil => simp [Bucket.insert, Bucket.Sorted, Bucket.keys]
  | cons e b ih =>
    obtain ⟨k1, v1⟩ := e
    rw [sorted_cons] at hb
    obtain ⟨hall, hb⟩ := hb
    unfold Bucket.insert
    by_cases h1 : bytesLt k k1 = true
    · rw [if_pos h1, sorted_cons]
      refine ⟨?_, sorted_cons.mpr ⟨hall, hb⟩⟩
      intro x hx
      simp only [Bucket.keys, List.map_cons, List.mem_cons] at hx
      rcases hx with hx | hx
      · rw [hx]; exact h1
      · exact bytesLt_trans h1 (hall x hx)
    · rw [if_neg h1]
      by_cases h2 : k = k1
      · subst h2
        rw [if_pos rfl]
        exact sorted_cons.mpr ⟨hall, hb⟩
      · rw [if_neg h2, sorted_cons]
        refine ⟨?_, ih hb⟩
        intro x hx
        rcases mem_keys_insert hx with hx | hx
        · rw [hx]
          exact bytesLt_total (by simpa using h1) h2
        · exact hall x hx

theorem sorted_filter {b : Bucket} (hb : b.Sorted) (f : GoString × GoString → Bool) :
    Bucket.Sorted (b.filter f) := by
  unfold Bucket.Sorted Bucket.keys at *
  exact List.Pairwise.sublist (List.Sublist.map _ (List.filter_sublist b)) hb

theorem get_filter (b : Bucket) (f : GoString → Bool) (k : GoString) :
    Bucket.Get (b.filter (fun e => f e.1)) k = if f k = true then Bucket.Get b k else none := by
  induction b with
  | nil => simp [get_nil]
  | cons e b ih =>
    obtain ⟨k1, v1⟩ := e
    by_cases h1 : f k1 = true
    · rw [List.filter_cons_of_pos (by simpa using h1), get_cons, get_cons, ih]
      by_cases h2 : k = k1
      · subst h2; simp [h1]
      · simp [h2]
    · rw [List.filter_cons_of_neg (by simpa using h1), get_cons, ih]
      by_cases h2 : k = k1
      · subst h2; simp [h1]
      · simp [h2]

theorem get_delete (b : Bucket) (k k' : GoString) :
    Bucket.Get (b.Delete k) k' = if k' = k then none else Bucket.Get b k' := by
  unfold Bucket.Delete
  rw [get_filter b (fun x => decide (x ≠ k)) k']
  by_cases h : k' = k <;> simp [h]

theorem sorted_delete {b : Bucket} (hb : b.Sorted) (k : GoString) : (b.Delete k).Sorted :=
  sorted_filter hb _

theorem put_ok {b b1 : Bucket} {k v : GoString} (h : b.Put k v = .ok b1) :
    b1 = Bucket.insert b k v := by
  unfold Bucket.Put at h
  split at h
  · cases h
  · split at h
    · cases h
    · split at h
      · cases h
      · cases h; rfl

/-! ## Cursor scans and `deleteRange` -/

theorem seek_all_not_lt {b : Bucket} (hb : b.Sorted) (p : GoString) :
    ∀ x ∈ Bucket.keys (b.Seek p), bytesLt x p = false := by
  induction b with
  | nil => intro x hx; simp [Bucket.Seek, Bucket.keys] at hx
  | cons e b ih =>
    obtain ⟨k1, v1⟩ := e
    rw [sorted_cons] at hb
    obtain ⟨hall, hb⟩ := hb
    by_cases h1 : bytesLt k1 p = true
    · have : Bucket.Seek ((k1, v1) :: b) p = Bucket.Seek b p := by
        simp [Bucket.Seek, List.dropWhile_cons, h1]
      rw [this]; exact ih hb
    · have : Bucket.Seek ((k1, v1) :: b) p = (k1, v1) :: b := by
        simp [Bucket.Seek, List.dropWhile_cons, h1]
      rw [this]
      intro x hx
      simp only [Bucket.keys, List.map_cons, List.mem_cons] at hx
      rcases hx with hx | hx
      · rw [hx]; simpa using h1
      · by_contra hlt
        exact h1 (bytesLt_trans (hall x hx) (by simpa using hlt))

theorem sorted_seek {b : Bucket} (hb : b.Sorted) (p : GoString) : Bucket.Sorted (b.Seek p) := by
  unfold Bucket.Sorted Bucket.keys at *
  exact List.Pairwise.sublist (List.Sublist.map _ (List.dropWhile_sublist _)) hb

theorem filter_seek (b : Bucket) (p : GoString) :
    (b.Seek p).filter (fun e => HasPrefix e.1 p) = b.filter (fun e => HasPrefix e.1 p) := by
  induction b with
  | nil => rfl
  | cons e b ih =>
    obtain ⟨k1, v1⟩ := e
    by_cases h1 : bytesLt k1 p = true
    · have hs : Bucket.Seek ((k1, v1) :: b) p = Bucket.Seek b p := by
        simp [Bucket.Seek, List.dropWhile_cons, h1]
      have hp : HasPrefix k1 p = false := by
        by_contra hp
        have := not_lt_of_hasPrefix (k := k1) (p := p) (by simpa using hp)
        rw [this] at h1
        exact Bool.noConfusion h1
      rw [hs, ih, List.filter_cons_of_neg (by simp [hp])]
    · have hs : Bucket.Seek ((k1, v1) :: b) p = (k1, v1) :: b := by
        simp [Bucket.Seek, List.dropWhile_cons, h1]
      rw [hs]

/-- Above `p`, walking while the key starts with `p` visits every key that
starts with `p`. -/
theorem takeWhile_eq_filter {l : Bucket} (hl : l.Sorted) (p : GoString)
    (hge : ∀ x ∈ l.keys, bytesLt x p = false) :
    l.takeWhile (fun e => HasPrefix e.1 p) = l.filter (fun e => HasPrefix e.1 p) := by
  induction l with
  | nil => rfl
  | cons e l ih =>
    obtain ⟨k1, v1⟩ := e
    rw [sorted_cons] at hl
    obtain ⟨hall, hl⟩ := hl
    have hge1 : bytesLt k1 p = false := hge k1 (by simp [Bucket.keys])
    have hge2 : ∀ x ∈ Bucket.keys l, bytesLt x p = false := fun x hx =>
      hge x (by simp only [Bucket.keys, List.map_cons, List.mem_cons]; exact Or.inr hx)
    by_cases h1 : HasPrefix k1 p = true
    · rw [List.takeWhile_cons_of_pos (by simpa using h1),
        List.filter_cons_of_pos (by simpa using h1), ih hl hge2]
    · rw [List.takeWhile_cons_of_neg (by simpa using h1),
        List.filter_cons_of_neg (by simpa using h1)]
      symm
      rw [List.filter_eq_nil_iff]
      intro e he hpe
      apply h1
      exact hasPrefix_of_between hge1
        (hall e.1 (by simp only [Bucket.keys, List.mem_map]; exact ⟨e, he, rfl⟩)) hpe

theorem prefixScan_eq {b : Bucket} (hb : b.Sorted) (p : GoString) :
    prefixScan b p = Bucket.keys (b.filter (fun e => HasPrefix e.1 p)) := by
  unfold prefixScan
  rw [takeWhile_eq_filter (sorted_seek hb p) p (seek_all_not_lt hb p), filter_seek]

theorem deleteLoop_eq (p : GoString) (cur b : Bucket) :
    deleteLoop p cur b =
      b.filter (fun e => decide (e.1 ∉ Bucket.keys (cur.takeWhile (fun e => HasPrefix e.1 p)))) := by
  induction cur generalizing b with
  | nil => simp [deleteLoop, Bucket.keys]
  | cons c cur ih =>
    obtain ⟨k1, v1⟩ := c
    unfold deleteLoop
    by_cases h1 : HasPrefix k1 p = true
    · rw [if_pos h1, ih, List.takeWhile_cons_of_pos (by simpa using h1)]
      unfold Bucket.Delete
      rw [List.filter_filter]
      apply List.filter_congr
      intro e _
      simp only [Bucket.keys, List.map_cons, List.mem_cons, not_or, Bool.decide_and,
        Bool.and_comm]
    · rw [if_neg h1, List.takeWhile_cons_of_neg (by simpa using h1)]
      simp [Bucket.keys]

/-- On a well-formed bucket `deleteRange` removes exactly the keys that start
with the given bytes. -/
theorem deleteRange_eq {b : Bucket} (hb : b.Sorted) (p : GoString) :
    deleteRange b p = b.filter (fun e => !HasPrefix e.1 p) := by
  unfold deleteRange
  rw [deleteLoop_eq, takeWhile_eq_filter (sorted_seek hb p) p (seek_all_not_lt hb p),
    filter_seek]
  apply List.filter_congr
  intro e he
  by_cases h1 : HasPrefix e.1 p = true
  · have : e.1 ∈ Bucket.keys (List.filter (fun e => HasPrefix e.1 p) b) := by
      simp only [Bucket.keys, List.mem_map, List.mem_filter]
      exact ⟨e, ⟨he, h1⟩, rfl⟩
    simp [h1, this]
  · have : e.1 ∉ Bucket.keys (List.filter (fun e => HasPrefix e.1 p) b) := by
      simp only [Bucket.keys, List.mem_map, List.mem_filter]
      rintro ⟨e2, ⟨_, h2⟩, h3⟩
      rw [h3] at h2
      exact h1 h2
    simp [h1, this]

theorem get_deleteRange {b : Bucket} (hb : b.Sorted) (p k : GoString) :
    Bucket.Get (deleteRange b p) k = if HasPrefix k p = true then none else Bucket.Get b k := by
  rw [deleteRange_eq hb, get_filter b (fun x => !HasPrefix x p) k]
  by_cases h : HasPrefix k p = true <;> simp [h]

theorem sorted_deleteRange {b : Bucket} (hb : b.Sorted) (p : GoString) :
    (deleteRange b p).Sorted := by
  rw [deleteRange_eq hb]; exact sorted_filter hb _

/-! ## The modelled codec satisfies the codec assumptions -/

theorem encBody_cancel {s s' x y : GoString} (h : encBody s ++ x = encBody s' ++ y) :
    s = s' ∧ x = y := by
  induction s generalizing s' with
  | nil =>
    cases s' with
    | nil => simpa [encBody] using h
    | cons c s' => simp [encBody] at h
  | cons c s ih =>
    cases s' with
    | nil => simp [encBody] at h
    | cons c' s' =>
      simp only [encBody, List.cons_append, List.cons.injEq, true_and] at h
      obtain ⟨hc, h⟩ := h
      obtain ⟨hs, hx⟩ := ih h
      exact ⟨by rw [hc, hs], hx⟩

theorem bigEndian_length (k n : Nat) : (bigEndian k n).length = k := by
  induction k generalizing n with
  | zero => rfl
  | succ k ih => simp [bigEndian, ih]

theorem bigEndian_eq_iff (k n m : Nat) :
    bigEndian k n = bigEndian k m ↔ n % 256 ^ k = m % 256 ^ k := by
  induction k generalizing n m with
  | zero => simp [bigEndian, Nat.mod_one]
  | succ k ih =>
    simp only [bigEndian]
    rw [Nat.pow_succ', Nat.mod_mul, Nat.mod_mul]
    have h256 : n % 256 < 256 := Nat.mod_lt _ (by decide)
    have h256' : m % 256 < 256 := Nat.mod_lt _ (by decide)
    constructor
    · intro h
      obtain ⟨h1, h2⟩ := List.append_inj' h rfl
      have h3 := (ih _ _).mp h1
      have h4 : n % 256 = m % 256 := by simpa using h2
      rw [h3, h4]
    · intro h
      have h3 : n / 256 % 256 ^ k = m / 256 % 256 ^ k := by omega
      have h4 : n % 256 = m % 256 := by omega
      rw [(ih _ _).mpr h3, h4]

theorem bigEndian_cancel {n m : Nat} {x y : GoString} (hn : n < 2 ^ 64) (hm : m < 2 ^ 64)
    (h : bigEndian 8 n ++ x = bigEndian 8 m ++ y) : n = m ∧ x = y := by
  obtain ⟨h1, h2⟩ := List.append_inj h (by rw [bigEndian_length, bigEndian_length])
  refine ⟨?_, h2⟩
  have h3 := (bigEndian_eq_iff 8 n m).mp h1
  have e : (256 : Nat) ^ 8 = 2 ^ 64 := by norm_num
  rw [e, Nat.mod_eq_of_lt hn, Nat.mod_eq_of_lt hm] at h3
  exact h3

theorem encElem_ne_nil (a : Elem) : encElem a ≠ [] := by
  cases a <;> simp [encElem]

theorem encElem_cancel {a b : Elem} {x y : GoString} (ha : a.WF) (hb : b.WF)
    (h : encElem a ++ x = encElem b ++ y) : a = b ∧ x = y := by
  cases a with
  | str s =>
    cases b with
    | str s' =>
      simp only [encElem, List.cons_append, List.cons.injEq, true_and] at h
      obtain ⟨h1, h2⟩ := encBody_cancel h
      exact ⟨by rw [h1], h2⟩
    | int m => simp [encElem] at h
    | bytes c => simp [encElem] at h
  | int n =>
    cases b with
    | str s' => simp [encElem] at h
    | int m =>
      simp only [encElem, List.cons_append, List.cons.injEq, true_and] at h
      obtain ⟨h1, h2⟩ := bigEndian_cancel ha hb h
      exact ⟨by rw [h1], h2⟩
    | bytes c => simp [encElem] at h
  | bytes c =>
    cases b with
    | str s' => simp [encElem] at h
    | int m => simp [encElem] at h
    | bytes c' =>
      simp only [encElem, List.cons_append, List.cons.injEq, true_and] at h
      obtain ⟨h1, h2⟩ := encBody_cancel h
      exact ⟨by rw [h1], h2⟩

theorem tuplePack_append (t u : Tuple) : tuplePack (t ++ u) = tuplePack t ++ tuplePack u := by
  induction t with
  | nil => rfl
  | cons e t ih => simp [tuplePack, ih]

theorem tuplePack_selfDelimiting : SelfDelimiting tuplePack := by
  intro t1 t2 h1 h2
  rw [hasPrefix_iff]
  constructor
  · intro h
    induction t1 generalizing t2 with
    | nil => exact List.nil_prefix
    | cons a t1 ih =>
      obtain ⟨z, hz⟩ := h
      cases t2 with
      | nil =>
        exfalso
        simp only [tuplePack, List.append_assoc, List.append_eq_nil] at hz
        exact encElem_ne_nil a hz.1
      | cons b t2 =>
        simp only [tuplePack, List.append_assoc] at hz
        obtain ⟨hab, hrest⟩ := encElem_cancel (h1 a (List.mem_cons_self _ _))
          (h2 b (List.mem_cons_self _ _)) hz
        subst hab
        rw [List.cons_prefix_cons]
        refine ⟨rfl, ih t2 (fun e he => h1 e (List.mem_cons_of_mem _ he))
          (fun e he => h2 e (List.mem_cons_of_mem _ he)) ⟨z, hrest⟩⟩
  · rintro ⟨r, rfl⟩
    rw [tuplePack_append]
    exact List.prefix_append _ _

theorem packInjective_of_selfDelimiting {pack : Tuple → GoString} (h : SelfDelimiting pack) :
    PackInjective pack := by
  intro t1 t2 h1 h2 heq
  have p12 : t1 <+: t2 := (h t1 t2 h1 h2).mp (by rw [heq, hasPrefix_iff])
  have p21 : t2 <+: t1 := (h t2 t1 h2 h1).mp (by rw [heq, hasPrefix_iff])
  exact List.IsPrefix.eq_of_length_le p12 p21.length_le

theorem tuplePack_injective : PackInjective tuplePack :=
  packInjective_of_selfDelimiting tuplePack_selfDelimiting

theorem bytesLt_cons_same (c : Nat) (x y : GoString) :
    bytesLt (c :: x) (c :: y) = bytesLt x y := by
  simp [bytesLt]

theorem bytesLt_append_left (p x y : GoString) : bytesLt (p ++ x) (p ++ y) = bytesLt x y := by
  induction p with
  | nil => rfl
  | cons c p ih => simp [bytesLt, ih]

theorem bytesLt_append_of_length {a b : GoString} (hlen : a.length = b.length)
    (u w : GoString) :
    (bytesLt (a ++ u) (b ++ w) = true) ↔
      (bytesLt a b = true ∨ (a = b ∧ bytesLt u w = true)) := by
  induction a generalizing b with
  | nil =>
    cases b with
    | nil => simp [bytesLt]
    | cons y b => simp at hlen
  | cons x a ih =>
    cases b with
    | nil => simp at hlen
    | cons y b =>
      have hlen' : a.length = b.length := by simpa using hlen
      have e1 : bytesLt (x :: a ++ u) (y :: b ++ w) =
          (decide (x < y) || (x == y && bytesLt (a ++ u) (b ++ w))) := rfl
      have e2 : bytesLt (x :: a) (y :: b) = (decide (x < y) || (x == y && bytesLt a b)) := rfl
      rw [e1, e2]
      simp only [Bool.or_eq_true, Bool.and_eq_true, decide_eq_true_eq, beq_iff_eq,
        List.cons.injEq]
      rw [ih hlen']
      constructor
      · rintro (h | ⟨h1, h2 | ⟨h2, h3⟩⟩)
        · exact Or.inl (Or.inl h)
        · exact Or.inl (Or.inr ⟨h1, h2⟩)
        · exact Or.inr ⟨⟨h1, h2⟩, h3⟩
      · rintro ((h | ⟨h1, h2⟩) | ⟨⟨h1, h2⟩, h3⟩)
        · exact Or.inl h
        · exact Or.inr ⟨h1, Or.inl h2⟩
        · exact Or.inr ⟨h1, Or.inr ⟨h2, h3⟩⟩

theorem bytesLt_bigEndian (k n m : Nat) :
    bytesLt (bigEndian k n) (bigEndian k m) = true ↔ n % 256 ^ k < m % 256 ^ k := by
  induction k generalizing n m with
  | zero => simp [bigEndian, bytesLt, Nat.mod_one]
  | succ k ih =>
    simp only [bigEndian]
    rw [bytesLt_append_of_length (by rw [bigEndian_length, bigEndian_length]), ih,
      bigEndian_eq_iff, Nat.pow_succ', Nat.mod_mul, Nat.mod_mul]
    have h256 : n % 256 < 256 := Nat.mod_lt _ (by decide)
    have h256' : m % 256 < 256 := Nat.mod_lt _ (by decide)
    have hl : bytesLt [n % 256] [m % 256] = true ↔ n % 256 < m % 256 := by
      simp [bytesLt]
    rw [hl]
    omega

theorem tuplePack_orderPreserving : OrderPreserving tuplePack := by
  intro t i j _ hi hj
  rw [tuplePack_append, tuplePack_append, bytesLt_append_left]
  have e : (256 : Nat) ^ 8 = 2 ^ 64 := by norm_num
  have h := bytesLt_bigEndian 8 i j
  rw [e, Nat.mod_eq_of_lt hi, Nat.mod_eq_of_lt hj] at h
  have e1 : ∀ n : Nat, tuplePack [Elem.int n] = 21 :: bigEndian 8 n := fun n =>
    List.append_nil _
  rw [e1, e1, bytesLt_cons_same]
  exact h

/-! ## Effect of the three operations -/

theorem wf_keyByIndex (r ns n : GoString) {i : Nat} (hi : i < 2 ^ 64) (u : Nat) :
    Tuple.WF (keyByIndex r ns n i u) := by
  intro e he
  simp only [keyByIndex, List.mem_cons, List.mem_singleton, List.not_mem_nil, or_false] at he
  rcases he with h | h | h | h | h <;> subst h <;> first | exact hi | exact True.intro

theorem wf_keyByType (r ns n : GoString) {i : Nat} (hi : i < 2 ^ 64) :
    Tuple.WF (keyByType r ns n i) := by
  intro e he
  simp only [keyByType, List.mem_cons, List.mem_singleton, List.not_mem_nil, or_false] at he
  rcases he with h | h | h | h <;> subst h <;> first | exact hi | exact True.intro

theorem wf_strs (l : List GoString) : Tuple.WF (l.map Elem.str) := by
  intro e he
  simp only [List.mem_map] at he
  obtain ⟨x, _, rfl⟩ := he
  exact True.intro

theorem wf_uid (uid : GoString) : Tuple.WF [Elem.str uid] := wf_strs [uid]

theorem wf_pair (r ns : GoString) : Tuple.WF [Elem.str r, Elem.str ns] := wf_strs [r, ns]

theorem wf_triple (r ns n : GoString) : Tuple.WF [Elem.str r, Elem.str ns, Elem.str n] :=
  wf_strs [r, ns, n]

theorem create_ok {pack : Tuple → GoString} {b b1 : Bucket} {r ns n uid cur : GoString}
    {i : Nat} (h : BoltArchiver.Create pack b r ns n uid i cur = .ok b1) :
    b1 =
      if uid.length ≠ 0 then
        Bucket.insert
          (Bucket.insert (Bucket.insert b (pack (keyByIndex r ns n i 0)) cur)
            (pack (keyByType r ns n i)) [])
          (pack [Elem.str uid]) (pack [Elem.int i])
      else
        Bucket.insert (Bucket.insert b (pack (keyByIndex r ns n i 0)) cur)
          (pack (keyByType r ns n i)) [] := by
  unfold BoltArchiver.Create at h
  split at h
  · cases h
  · rename_i b2 h2
    have e2 := put_ok h2
    split at h
    · cases h
    · rename_i b3 h3
      have e3 := put_ok h3
      subst e2 e3
      by_cases hu : uid.length ≠ 0
      · rw [if_pos hu] at h
        rw [if_pos hu]
        exact put_ok h
      · rw [if_neg hu] at h
        rw [if_neg hu]
        cases h; rfl

theorem update_ok {pack : Tuple → GoString} {b b1 : Bucket} {r ns n uid cur : GoString}
    {i : Nat} (h : BoltArchiver.Update pack b r ns n uid i cur = .ok b1) :
    b1 =
      if uid.length ≠ 0 then
        Bucket.insert
          (Bucket.insert
            (deleteRange (Bucket.insert b (pack (keyByIndex r ns n i 1)) cur)
              (pack [Elem.str r, Elem.str ns]))
            (pack (keyByType r ns n i)) [])
          (pack [Elem.str uid]) (pack [Elem.int i])
      else
        Bucket.insert
          (deleteRange (Bucket.insert b (pack (keyByIndex r ns n i 1)) cur)
            (pack [Elem.str r, Elem.str ns]))
          (pack (keyByType r ns n i)) [] := by
  unfold BoltArchiver.Update at h
  split at h
  · cases h
  · rename_i b2 h2
    have e2 := put_ok h2
    simp only at h
    split at h
    · cases h
    · rename_i b3 h3
      have e3 := put_ok h3
      subst e2 e3
      by_cases hu : uid.length ≠ 0
      · rw [if_pos hu] at h
        rw [if_pos hu]
        exact put_ok h
      · rw [if_neg hu] at h
        rw [if_neg hu]
        cases h; rfl

theorem delete_ok {pack : Tuple → GoString} {b b1 : Bucket} {r ns n uid : GoString}
    {i : Nat} (h : BoltArchiver.Delete pack b r ns n uid i = .ok b1) :
    b1 =
      if uid.length ≠ 0 then
        Bucket.Delete
          (deleteRange (Bucket.insert b (pack (keyByIndex r ns n i 2)) [])
            (pack [Elem.str r, Elem.str ns]))
          (pack [Elem.str uid])
      else
        deleteRange (Bucket.insert b (pack (keyByIndex r ns n i 2)) [])
          (pack [Elem.str r, Elem.str ns]) := by
  unfold BoltArchiver.Delete at h
  split at h
  · cases h
  · rename_i b2 h2
    have e2 := put_ok h2
    subst e2
    simp only at h
    by_cases hu : uid.length ≠ 0
    · rw [if_pos hu] at h
      rw [if_pos hu]
      cases h; rfl
    · rw [if_neg hu] at h
      rw [if_neg hu]
      cases h; rfl

theorem get_create {pack : Tuple → GoString} {b b1 : Bucket} {r ns n uid cur : GoString}
    {i : Nat} (h : BoltArchiver.Create pack b r ns n uid i cur = .ok b1) (k : GoString) :
    b1.Get k =
      if uid.length ≠ 0 ∧ k = pack [Elem.str uid] then some (pack [Elem.int i])
      else if k = pack (keyByType r ns n i) then some []
      else if k = pack (keyByIndex r ns n i 0) then some cur
      else b.Get k := by
  have hb1 := create_ok h
  by_cases hu : uid.length ≠ 0
  · rw [if_pos hu] at hb1
    subst hb1
    rw [get_insert, get_insert, get_insert]
    by_cases hk : k = pack [Elem.str uid]
    · simp only [hk, hu, if_true, ne_eq, not_false_eq_true, and_self]
    · simp only [hk, if_false, and_false]
  · rw [if_neg hu] at hb1
    subst hb1
    rw [get_insert, get_insert]
    simp only [hu, false_and, if_false]

theorem get_update {pack : Tuple → GoString} {b b1 : Bucket} {r ns n uid cur : GoString}
    {i : Nat} (hb : b.Sorted) (h : BoltArchiver.Update pack b r ns n uid i cur = .ok b1)
    (k : GoString) :
    b1.Get k =
      if uid.length ≠ 0 ∧ k = pack [Elem.str uid] then some (pack [Elem.int i])
      else if k = pack (keyByType r ns n i) then some []
      else if HasPrefix k (pack [Elem.str r, Elem.str ns]) = true then none
      else if k = pack (keyByIndex r ns n i 1) then some cur
      else b.Get k := by
  have hb1 := update_ok h
  have hs := sorted_insert hb (pack (keyByIndex r ns n i 1)) cur
  by_cases hu : uid.length ≠ 0
  · rw [if_pos hu] at hb1
    subst hb1
    rw [get_insert, get_insert, get_deleteRange hs, get_insert]
    by_cases hk : k = pack [Elem.str uid]
    · simp only [hk, hu, if_true, ne_eq, not_false_eq_true, and_self]
    · simp only [hk, if_false, and_false]
  · rw [if_neg hu] at hb1
    subst hb1
    rw [get_insert, get_deleteRange hs, get_insert]
    simp only [hu, false_and, if_false]

theorem get_deleteOp {pack : Tuple → GoString} {b b1 : Bucket} {r ns n uid : GoString}
    {i : Nat} (hb : b.Sorted) (h : BoltArchiver.Delete pack b r ns n uid i = .ok b1)
    (k : GoString) :
    b1.Get k =
      if uid.length ≠ 0 ∧ k = pack [Elem.str uid] then none
      else if HasPrefix k (pack [Elem.str r, Elem.str ns]) = true then none
      else if k = pack (keyByIndex r ns n i 2) then some []
      else b.Get k := by
  have hb1 := delete_ok h
  have hs := sorted_insert hb (pack (keyByIndex r ns n i 2)) []
  by_cases hu : uid.length ≠ 0
  · rw [if_pos hu] at hb1
    subst hb1
    rw [get_delete, get_deleteRange hs, get_insert]
    by_cases hk : k = pack [Elem.str uid]
    · simp only [hk, hu, if_true, ne_eq, not_false_eq_true, and_self]
    · simp only [hk, if_false, and_false]
  · rw [if_neg hu] at hb1
    subst hb1
    rw [get_deleteRange hs, get_insert]
    simp only [hu, false_and, if_false]

theorem sorted_apply {pack : Tuple → GoString} {b b1 : Bucket} (hb : b.Sorted) {o : Op}
    (h : o.apply pack b = .ok b1) : b1.Sorted := by
  cases o with
  | Create r ns n uid i cur =>
    have hb1 := create_ok (show BoltArchiver.Create pack b r ns n uid i cur = .ok b1 from h)
    subst hb1
    split
    · exact sorted_insert (sorted_insert (sorted_insert hb _ _) _ _) _ _
    · exact sorted_insert (sorted_insert hb _ _) _ _
  | Update r ns n uid i cur =>
    have hb1 := update_ok (show BoltArchiver.Update pack b r ns n uid i cur = .ok b1 from h)
    subst hb1
    split
    · exact sorted_insert (sorted_insert (sorted_deleteRange (sorted_insert hb _ _) _) _ _) _ _
    · exact sorted_insert (sorted_deleteRange (sorted_insert hb _ _) _) _ _
  | Delete r ns n uid i =>
    have hb1 := delete_ok (show BoltArchiver.Delete pack b r ns n uid i = .ok b1 from h)
    subst hb1
    split
    · exact sorted_delete (sorted_deleteRange (sorted_insert hb _ _) _) _
    · exact sorted_deleteRange (sorted_insert hb _ _) _

theorem runOps_append {pack : Tuple → GoString} (b : Bucket) (l1 l2 : List Op) :
    runOps pack b (l1 ++ l2) =
      match runOps pack b l1 with
      | .error e => .error e
      | .ok b1 => runOps pack b1 l2 := by
  induction l1 generalizing b with
  | nil => rfl
  | cons o l1 ih =>
    simp only [List.cons_append, runOps]
    cases o.apply pack b with
    | error e => rfl
    | ok b1 => exact ih b1

theorem sorted_runOps {pack : Tuple → GoString} {b b1 : Bucket} (hb : b.Sorted)
    {ops : List Op} (h : runOps pack b ops = .ok b1) : b1.Sorted := by
  induction ops generalizing b with
  | nil => cases h; exact hb
  | cons o ops ih =>
    simp only [runOps] at h
    split at h
    · cases h
    · rename_i b2 h2
      exact ih (sorted_apply hb h2) h

/-! ## Origin of the keys of an archive -/

theorem origin_mono {pack : Tuple → GoString} {ops : List Op} {k : GoString}
    (h : KeyOrigin pack ops k) (more : List Op) : KeyOrigin pack (ops ++ more) k := by
  rcases h with h | h | ⟨o, ho, h⟩
  · exact Or.inl h
  · exact Or.inr (Or.inl h)
  · exact Or.inr (Or.inr ⟨o, List.mem_append_left _ ho, h⟩)

theorem origin_apply {pack : Tuple → GoString} {ops : List Op} {b b1 : Bucket} {o : Op}
    (hor : ∀ k, b.Get k ≠ none → KeyOrigin pack ops k) (hb : b.Sorted)
    (hi : o.index < 2 ^ 64) (h : o.apply pack b = .ok b1) :
    ∀ k, b1.Get k ≠ none → KeyOrigin pack (ops ++ [o]) k := by
  intro k hk
  cases o with
  | Create r ns n uid i cur =>
    rw [get_create (show BoltArchiver.Create pack b r ns n uid i cur = .ok b1 from h)] at hk
    split at hk
    · rename_i h1; exact Or.inr (Or.inl ⟨uid, h1.2⟩)
    · split at hk
      · rename_i h2
        exact Or.inr (Or.inr ⟨_, List.mem_append_right _ (List.mem_singleton_self _),
          rfl, hi, h2⟩)
      · split at hk
        · rename_i h3; exact Or.inl ⟨r, ns, n, i, 0, hi, h3⟩
        · exact origin_mono (hor k hk) _
  | Update r ns n uid i cur =>
    rw [get_update hb (show BoltArchiver.Update pack b r ns n uid i cur = .ok b1 from h)] at hk
    split at hk
    · rename_i h1; exact Or.inr (Or.inl ⟨uid, h1.2⟩)
    · split at hk
      · rename_i h2
        exact Or.inr (Or.inr ⟨_, List.mem_append_right _ (List.mem_singleton_self _),
          rfl, hi, h2⟩)
      · split at hk
        · exact absurd rfl hk
        · split at hk
          · rename_i h3; exact Or.inl ⟨r, ns, n, i, 1, hi, h3⟩
          · exact origin_mono (hor k hk) _
  | Delete r ns n uid i =>
    rw [get_deleteOp hb (show BoltArchiver.Delete pack b r ns n uid i = .ok b1 from h)] at hk
    split at hk
    · exact absurd rfl hk
    · split at hk
      · exact absurd rfl hk
      · split at hk
        · rename_i h3; exact Or.inl ⟨r, ns, n, i, 2, hi, h3⟩
        · exact origin_mono (hor k hk) _

theorem origin_runOps {pack : Tuple → GoString} {ops0 ops : List Op} {b b1 : Bucket}
    (hor : ∀ k, b.Get k ≠ none → KeyOrigin pack ops0 k) (hb : b.Sorted)
    (hi : ∀ o ∈ ops, o.index < 2 ^ 64) (h : runOps pack b ops = .ok b1) :
    ∀ k, b1.Get k ≠ none → KeyOrigin pack (ops0 ++ ops) k := by
  induction ops generalizing b ops0 with
  | nil => cases h; simpa using hor
  | cons o ops ih =>
    simp only [runOps] at h
    split at h
    · cases h
    · rename_i b2 h2
      have h3 := ih (origin_apply hor hb (hi o (List.mem_cons_self _ _)) h2)
        (sorted_apply hb h2) (fun o' ho' => hi o' (List.mem_cons_of_mem _ ho')) h
      intro k hk
      have := h3 k hk
      rwa [List.append_assoc, List.singleton_append] at this

/-! ## Keys of the versions index under the codec assumptions -/

theorem versions_key_inj {pack : Tuple → GoString} (hinj : PackInjective pack)
    {r ns n r' ns' n' : GoString} {i j : Nat} (hi : i < 2 ^ 64) (hj : j < 2 ^ 64)
    (h : pack (keyByType r ns n i) = pack (keyByType r' ns' n' j)) :
    r = r' ∧ ns = ns' ∧ n = n' ∧ i = j := by
  have := hinj _ _ (wf_keyByType r ns n hi) (wf_keyByType r' ns' n' hj) h
  simpa [keyByType] using this

theorem versions_ne_index {pack : Tuple → GoString} (hinj : PackInjective pack)
    {r ns n r' ns' n' : GoString} {i j : Nat} (u : Nat) (hi : i < 2 ^ 64) (hj : j < 2 ^ 64) :
    pack (keyByType r ns n i) ≠ pack (keyByIndex r' ns' n' j u) := by
  intro h
  have := hinj _ _ (wf_keyByType r ns n hi) (wf_keyByIndex r' ns' n' hj u) h
  simp [keyByType, keyByIndex] at this

theorem versions_ne_uid {pack : Tuple → GoString} (hinj : PackInjective pack)
    {r ns n uid : GoString} {i : Nat} (hi : i < 2 ^ 64) :
    pack (keyByType r ns n i) ≠ pack [Elem.str uid] := by
  intro h
  have := hinj _ _ (wf_keyByType r ns n hi) (wf_uid uid) h
  simp [keyByType] at this

theorem versions_hasPrefix_pair {pack : Tuple → GoString} (hsd : SelfDelimiting pack)
    {r ns n r' ns' : GoString} {i : Nat} (hi : i < 2 ^ 64) :
    HasPrefix (pack (keyByType r ns n i)) (pack [Elem.str r', Elem.str ns']) = true ↔
      r' = r ∧ ns' = ns := by
  rw [hsd _ _ (wf_pair r' ns') (wf_keyByType r ns n hi)]
  simp [keyByType, List.cons_prefix_cons]

theorem versions_hasPrefix_triple {pack : Tuple → GoString} (hsd : SelfDelimiting pack)
    (r ns n : GoString) {i : Nat} (hi : i < 2 ^ 64) :
    HasPrefix (pack (keyByType r ns n i)) (pack [Elem.str r, Elem.str ns, Elem.str n])
      = true := by
  rw [hsd _ _ (wf_triple r ns n) (wf_keyByType r ns n hi)]
  simp [keyByType, List.cons_prefix_cons]

/-- A key of the archive that starts with the encoding of
`(resource, namespace, name)` is the versions key written by a `Create` or
`Update` of that name. -/
theorem origin_of_hasPrefix {pack : Tuple → GoString} (hsd : SelfDelimiting pack)
    {ops : List Op} {k r ns n : GoString} (hor : KeyOrigin pack ops k)
    (hp : HasPrefix k (pack [Elem.str r, Elem.str ns, Elem.str n]) = true) :
    ∃ o ∈ ops, o.isWrite = true ∧ o.target = (r, ns, n) ∧ o.index < 2 ^ 64 ∧
      k = pack (keyByType r ns n o.index) := by
  rcases hor with ⟨r', ns', n', i, u, hi, hk⟩ | ⟨uid, hk⟩ | ⟨o, ho, hw, hi, hk⟩
  · exfalso
    rw [hk, hsd _ _ (wf_triple r ns n) (wf_keyByIndex r' ns' n' hi u)] at hp
    simp [keyByIndex, List.cons_prefix_cons] at hp
  · exfalso
    rw [hk, hsd _ _ (wf_triple r ns n) (wf_uid uid)] at hp
    simp [List.cons_prefix_cons] at hp
  · rw [hk, hsd _ _ (wf_triple r ns n) (wf_keyByType _ _ _ hi)] at hp
    simp only [keyByType, List.map_cons, List.map_nil, List.cons_prefix_cons, Elem.str.injEq,
      List.nil_prefix, and_true] at hp
    obtain ⟨h1, h2, h3⟩ := hp
    refine ⟨o, ho, hw, ?_, hi, ?_⟩
    · rw [h1, h2, h3]
    · rw [hk, ← h1, ← h2, ← h3]

theorem ascending_of_sorted_keys {pack : Tuple → GoString} (hop : OrderPreserving pack)
    (r ns n : GoString) (l : List GoString)
    (hl : l.Pairwise (fun x y => bytesLt x y = true))
    (hk : ∀ k ∈ l, ∃ j : Nat, j < 2 ^ 64 ∧ k = pack (keyByType r ns n j)) :
    ∃ is : List Nat, is.Pairwise (fun x y => x < y) ∧ (∀ j ∈ is, j < 2 ^ 64) ∧
      l = is.map (fun j => pack (keyByType r ns n j)) := by
  induction l with
  | nil => exact ⟨[], List.Pairwise.nil, by simp, rfl⟩
  | cons k l ih =>
    rw [List.pairwise_cons] at hl
    obtain ⟨hall, hl⟩ := hl
    obtain ⟨is, his, hlt, hmap⟩ := ih hl (fun k' hk' => hk k' (List.mem_cons_of_mem _ hk'))
    obtain ⟨j, hj, hkj⟩ := hk k (List.mem_cons_self _ _)
    refine ⟨j :: is, ?_, ?_, ?_⟩
    · rw [List.pairwise_cons]
      refine ⟨fun j' hj' => ?_, his⟩
      have hmem : pack (keyByType r ns n j') ∈ l := by
        rw [hmap]; exact List.mem_map_of_mem _ hj'
      have h1 := hall _ hmem
      rw [hkj] at h1
      exact (hop [Elem.str r, Elem.str ns, Elem.str n] j j' (wf_triple r ns n) hj
        (hlt j' hj')).mp h1
    · intro j' hj'
      rcases List.mem_cons.mp hj' with h | h
      · rw [h]; exact hj
      · exact hlt j' h
    · rw [List.map_cons, ← hmap, hkj]

theorem mem_versionsScan {pack : Tuple → GoString} {b : Bucket} (hb : b.Sorted)
    (r ns n k : GoString) :
    k ∈ versionsScan pack b r ns n ↔
      HasPrefix k (pack [Elem.str r, Elem.str ns, Elem.str n]) = true ∧ b.Get k ≠ none := by
  unfold versionsScan
  rw [prefixScan_eq hb, ← mem_keys_iff]
  simp only [Bucket.keys, List.mem_map, List.mem_filter]
  constructor
  · rintro ⟨e, ⟨he, hp⟩, rfl⟩
    exact ⟨hp, e, he, rfl⟩
  · rintro ⟨hp, e, he, rfl⟩
    exact ⟨e, ⟨he, hp⟩, rfl⟩

theorem pairwise_versionsScan {pack : Tuple → GoString} {b : Bucket} (hb : b.Sorted)
    (r ns n : GoString) :
    (versionsScan pack b r ns n).Pairwise (fun x y => bytesLt x y = true) := by
  unfold versionsScan
  rw [prefixScan_eq hb]
  exact sorted_filter hb _

theorem getLast_of_max {is : List Nat} {i : Nat} (hs : is.Pairwise (fun x y => x < y))
    (hmem : i ∈ is) (hmax : ∀ j ∈ is, j ≤ i) : is.getLast? = some i := by
  induction is with
  | nil => simp at hmem
  | cons a is ih =>
    rw [List.pairwise_cons] at hs
    obtain ⟨ha, hs⟩ := hs
    cases is with
    | nil =>
      simp only [List.mem_singleton] at hmem
      simp [hmem]
    | cons c is =>
      rw [List.getLast?_cons_cons]
      apply ih hs
      · rcases List.mem_cons.mp hmem with h | h
        · exfalso
          have h1 := ha c (List.mem_cons_self _ _)
          have h2 := hmax c (List.mem_cons_of_mem _ (List.mem_cons_self _ _))
          omega
        · exact h
      · exact fun j hj => hmax j (List.mem_cons_of_mem _ hj)

theorem versions_after_create {pack : Tuple → GoString} (hinj : PackInjective pack)
    {b b1 : Bucket} {r ns n uid cur : GoString} {i j : Nat} (hi : i < 2 ^ 64)
    (hj : j < 2 ^ 64) (h : BoltArchiver.Create pack b r ns n uid i cur = .ok b1) :
    b1.Get (pack (keyByType r ns n j)) =
      if j = i then some [] else b.Get (pack (keyByType r ns n j)) := by
  rw [get_create h]
  have h1 : ¬ (uid.length ≠ 0 ∧ pack (keyByType r ns n j) = pack [Elem.str uid]) :=
    fun hh => versions_ne_uid hinj hj hh.2
  have h3 : ¬ pack (keyByType r ns n j) = pack (keyByIndex r ns n i 0) :=
    versions_ne_index hinj 0 hj hi
  rw [if_neg h1]
  by_cases hji : j = i
  · subst hji; rw [if_pos rfl, if_pos rfl]
  · have h2 : ¬ pack (keyByType r ns n j) = pack (keyByType r ns n i) :=
      fun hh => hji (versions_key_inj hinj hj hi hh).2.2.2
    rw [if_neg h2, if_neg h3, if_neg hji]

theorem versions_after_update {pack : Tuple → GoString} (hsd : SelfDelimiting pack)
    {b b1 : Bucket} (hb : b.Sorted) {r ns n uid cur : GoString} {i j : Nat} (hi : i < 2 ^ 64)
    (hj : j < 2 ^ 64) (h : BoltArchiver.Update pack b r ns n uid i cur = .ok b1) :
    b1.Get (pack (keyByType r ns n j)) = if j = i then some [] else none := by
  have hinj := packInjective_of_selfDelimiting hsd
  rw [get_update hb h]
  have h1 : ¬ (uid.length ≠ 0 ∧ pack (keyByType r ns n j) = pack [Elem.str uid]) :=
    fun hh => versions_ne_uid hinj hj hh.2
  rw [if_neg h1]
  by_cases hji : j = i
  · subst hji; rw [if_pos rfl, if_pos rfl]
  · have h2 : ¬ pack (keyByType r ns n j) = pack (keyByType r ns n i) :=
      fun hh => hji (versions_key_inj hinj hj hi hh).2.2.2
    have h3 : HasPrefix (pack (keyByType r ns n j)) (pack [Elem.str r, Elem.str ns]) = true :=
      (versions_hasPrefix_pair hsd hj).mpr ⟨rfl, rfl⟩
    rw [if_neg h2, if_pos h3, if_neg hji]

theorem versions_after_delete {pack : Tuple → GoString} (hsd : SelfDelimiting pack)
    {b b1 : Bucket} (hb : b.Sorted) {r ns n uid : GoString} {i j : Nat}
    (hj : j < 2 ^ 64) (h : BoltArchiver.Delete pack b r ns n uid i = .ok b1) :
    b1.Get (pack (keyByType r ns n j)) = none := by
  have hinj := packInjective_of_selfDelimiting hsd
  rw [get_deleteOp hb h]
  have h1 : ¬ (uid.length ≠ 0 ∧ pack (keyByType r ns n j) = pack [Elem.str uid]) :=
    fun hh => versions_ne_uid hinj hj hh.2
  have h3 : HasPrefix (pack (keyByType r ns n j)) (pack [Elem.str r, Elem.str ns]) = true :=
    (versions_hasPrefix_pair hsd hj).mpr ⟨rfl, rfl⟩
  rw [if_neg h1, if_pos h3]

/-- An operation on another name that does not purge the same
`(resource, namespace)` leaves the versions entries of a name as they are. -/
theorem versions_frame {pack : Tuple → GoString} (hsd : SelfDelimiting pack)
    {b b1 : Bucket} (hb : b.Sorted) {o : Op} {r ns n : GoString} {j : Nat}
    (hi : o.index < 2 ^ 64) (hj : j < 2 ^ 64) (ht : o.target ≠ (r, ns, n))
    (hp : o.purges = true → (o.target.1, o.target.2.1) ≠ (r, ns))
    (h : o.apply pack b = .ok b1) :
    b1.Get (pack (keyByType r ns n j)) = b.Get (pack (keyByType r ns n j)) := by
  have hinj := packInjective_of_selfDelimiting hsd
  cases o with
  | Create r' ns' n' uid i cur =>
    rw [get_create (show BoltArchiver.Create pack b r' ns' n' uid i cur = .ok b1 from h)]
    have h1 : ¬ (uid.length ≠ 0 ∧ pack (keyByType r ns n j) = pack [Elem.str uid]) :=
      fun hh => versions_ne_uid hinj hj hh.2
    have h2 : ¬ pack (keyByType r ns n j) = pack (keyByType r' ns' n' i) := fun hh => by
      obtain ⟨e1, e2, e3, _⟩ := versions_key_inj hinj hj hi hh
      exact ht (by simp [Op.target, e1, e2, e3])
    have h3 : ¬ pack (keyByType r ns n j) = pack (keyByIndex r' ns' n' i 0) :=
      versions_ne_index hinj 0 hj hi
    rw [if_neg h1, if_neg h2, if_neg h3]
  | Update r' ns' n' uid i cur =>
    rw [get_update hb (show BoltArchiver.Update pack b r' ns' n' uid i cur = .ok b1 from h)]
    have h1 : ¬ (uid.length ≠ 0 ∧ pack (keyByType r ns n j) = pack [Elem.str uid]) :=
      fun hh => versions_ne_uid hinj hj hh.2
    have h2 : ¬ pack (keyByType r ns n j) = pack (keyByType r' ns' n' i) := fun hh => by
      obtain ⟨e1, e2, e3, _⟩ := versions_key_inj hinj hj hi hh
      exact ht (by simp [Op.target, e1, e2, e3])
    have h3 : ¬ pack (keyByType r ns n j) = pack (keyByIndex r' ns' n' i 1) :=
      versions_ne_index hinj 1 hj hi
    have h4 : ¬ HasPrefix (pack (keyByType r ns n j)) (pack [Elem.str r', Elem.str ns'])
        = true := fun hh => by
      obtain ⟨e1, e2⟩ := (versions_hasPrefix_pair hsd hj).mp hh
      exact hp rfl (by simp [Op.target, e1, e2])
    rw [if_neg h1, if_neg h2, if_neg h4, if_neg h3]
  | Delete r' ns' n' uid i =>
    rw [get_deleteOp hb (show BoltArchiver.Delete pack b r' ns' n' uid i = .ok b1 from h)]
    have h1 : ¬ (uid.length ≠ 0 ∧ pack (keyByType r ns n j) = pack [Elem.str uid]) :=
      fun hh => versions_ne_uid hinj hj hh.2
    have h3 : ¬ pack (keyByType r ns n j) = pack (keyByIndex r' ns' n' i 2) :=
      versions_ne_index hinj 2 hj hi
    have h4 : ¬ HasPrefix (pack (keyByType r ns n j)) (pack [Elem.str r', Elem.str ns'])
        = true := fun hh => by
      obtain ⟨e1, e2⟩ := (versions_hasPrefix_pair hsd hj).mp hh
      exact hp rfl (by simp [Op.target, e1, e2])
    rw [if_neg h1, if_neg h4, if_neg h3]

theorem versions_frame_run {pack : Tuple → GoString} (hsd : SelfDelimiting pack)
    {b b1 : Bucket} (hb : b.Sorted) {ops : List Op} {r ns n : GoString} {j : Nat}
    (hj : j < 2 ^ 64) (hi : ∀ o ∈ ops, o.index < 2 ^ 64)
    (ht : ∀ o ∈ ops, o.target ≠ (r, ns, n))
    (hp : ∀ o ∈ ops, o.purges = true → (o.target.1, o.target.2.1) ≠ (r, ns))
    (h : runOps pack b ops = .ok b1) :
    b1.Get (pack (keyByType r ns n j)) = b.Get (pack (keyByType r ns n j)) := by
  induction ops generalizing b with
  | nil => cases h; rfl
  | cons o ops ih =>
    simp only [runOps] at h
    split at h
    · cases h
    · rename_i b2 h2
      have ho := List.mem_cons_self o ops
      rw [ih (sorted_apply hb h2) (fun o' ho' => hi o' (List.mem_cons_of_mem _ ho'))
        (fun o' ho' => ht o' (List.mem_cons_of_mem _ ho'))
        (fun o' ho' => hp o' (List.mem_cons_of_mem _ ho')) h]
      exact versions_frame hsd hb (hi o ho) hj (ht o ho) (hp o ho) h2

/-! ## Event-log and uid keys under the codec assumptions -/

theorem hasPrefix_refl (k : GoString) : HasPrefix k k = true := by
  rw [hasPrefix_iff]

theorem hasPrefix_trans {k p q : GoString} (h1 : HasPrefix k p = true)
    (h2 : HasPrefix p q = true) : HasPrefix k q = true := by
  rw [hasPrefix_iff] at *
  exact List.IsPrefix.trans h2 h1

theorem tuplePack_tagsDiffer : TagsDiffer tuplePack := by
  intro i s t1 t2
  simp [tuplePack, encElem, HasPrefix]

theorem tagsDiffer_of_selfDelimiting {pack : Tuple → GoString} (hsd : SelfDelimiting pack)
    {i : Nat} (hi : i < 2 ^ 64) (r ns n : GoString) (u : Nat) (s : GoString) (t2 : Tuple)
    (ht2 : Tuple.WF (Elem.str s :: t2)) :
    ¬ HasPrefix (pack (keyByIndex r ns n i u)) (pack (Elem.str s :: t2)) = true := by
  intro h
  rw [hsd _ _ ht2 (wf_keyByIndex r ns n hi u)] at h
  simp [keyByIndex, List.cons_prefix_cons] at h

theorem index_ne_uid {pack : Tuple → GoString} (hinj : PackInjective pack)
    {r ns n uid : GoString} {i : Nat} (u : Nat) (hi : i < 2 ^ 64) :
    pack (keyByIndex r ns n i u) ≠ pack [Elem.str uid] := by
  intro h
  have := hinj _ _ (wf_keyByIndex r ns n hi u) (wf_uid uid) h
  simp [keyByIndex] at this

theorem uid_not_hasPrefix_pair {pack : Tuple → GoString} (hsd : SelfDelimiting pack)
    (uid r ns : GoString) :
    ¬ HasPrefix (pack [Elem.str uid]) (pack [Elem.str r, Elem.str ns]) = true := by
  intro h
  rw [hsd _ _ (wf_pair r ns) (wf_uid uid)] at h
  simp [List.cons_prefix_cons] at h

theorem uid_not_hasPrefix_triple {pack : Tuple → GoString} (hsd : SelfDelimiting pack)
    (uid r ns n : GoString) :
    ¬ HasPrefix (pack [Elem.str uid]) (pack [Elem.str r, Elem.str ns, Elem.str n]) = true := by
  intro h
  rw [hsd _ _ (wf_triple r ns n) (wf_uid uid)] at h
  simp [List.cons_prefix_cons] at h

theorem uid_key_inj {pack : Tuple → GoString} (hinj : PackInjective pack) {u v : GoString}
    (h : pack [Elem.str u] = pack [Elem.str v]) : u = v := by
  have := hinj _ _ (wf_uid u) (wf_uid v) h
  simpa using this

theorem pair_hasPrefix_triple {pack : Tuple → GoString} (hsd : SelfDelimiting pack)
    (r ns n : GoString) :
    HasPrefix (pack [Elem.str r, Elem.str ns, Elem.str n]) (pack [Elem.str r, Elem.str ns])
      = true := by
  rw [hsd _ _ (wf_pair r ns) (wf_triple r ns n)]
  simp [List.cons_prefix_cons]

theorem eq_singleton_of_pairwise {l : List GoString} {a : GoString}
    (hl : l.Pairwise (fun x y => bytesLt x y = true)) (hmem : ∀ k, k ∈ l ↔ k = a) :
    l = [a] := by
  cases l with
  | nil => exact absurd ((hmem a).mpr rfl) (List.not_mem_nil a)
  | cons x l =>
    have hx : x = a := (hmem x).mp (List.mem_cons_self _ _)
    subst hx
    cases l with
    | nil => rfl
    | cons y l =>
      exfalso
      have hy : y = x := (hmem y).mp (List.mem_cons_of_mem _ (List.mem_cons_self _ _))
      rw [List.pairwise_cons] at hl
      have := hl.1 y (List.mem_cons_self _ _)
      rw [hy, bytesLt_irrefl] at this
      exact Bool.noConfusion this

theorem apply_tagged_key {pack : Tuple → GoString} (htag : TagsDiffer pack) {b b1 : Bucket}
    (hb : b.Sorted) {o : Op} (h : o.apply pack b = .ok b1) (i : Nat) (t : Tuple) :
    b1.Get (pack (Elem.int i :: t)) =
      if pack (Elem.int i :: t) = pack o.logTuple then some o.logValue
      else b.Get (pack (Elem.int i :: t)) := by
  have hne : ∀ (s : GoString) (t2 : Tuple),
      ¬ pack (Elem.int i :: t) = pack (Elem.str s :: t2) := fun s t2 hh => by
    have h1 := htag i s t t2
    rw [← hh, hasPrefix_refl] at h1
    exact Bool.noConfusion h1
  have hnp : ∀ (s : GoString) (t2 : Tuple),
      ¬ HasPrefix (pack (Elem.int i :: t)) (pack (Elem.str s :: t2)) = true := fun s t2 hh => by
    rw [htag i s t t2] at hh
    exact Bool.noConfusion hh
  cases o with
  | Create r ns n uid j cur =>
    rw [get_create (show BoltArchiver.Create pack b r ns n uid j cur = .ok b1 from h)]
    have h1 : ¬ (uid.length ≠ 0 ∧ pack (Elem.int i :: t) = pack [Elem.str uid]) :=
      fun hh => hne uid [] hh.2
    have h2 : ¬ pack (Elem.int i :: t) = pack (keyByType r ns n j) := hne r _
    rw [if_neg h1, if_neg h2]
    rfl
  | Update r ns n uid j cur =>
    rw [get_update hb (show BoltArchiver.Update pack b r ns n uid j cur = .ok b1 from h)]
    have h1 : ¬ (uid.length ≠ 0 ∧ pack (Elem.int i :: t) = pack [Elem.str uid]) :=
      fun hh => hne uid [] hh.2
    have h2 : ¬ pack (Elem.int i :: t) = pack (keyByType r ns n j) := hne r _
    have h3 : ¬ HasPrefix (pack (Elem.int i :: t)) (pack [Elem.str r, Elem.str ns]) = true :=
      hnp r _
    rw [if_neg h1, if_neg h2, if_neg h3]
    rfl
  | Delete r ns n uid j =>
    rw [get_deleteOp hb (show BoltArchiver.Delete pack b r ns n uid j = .ok b1 from h)]
    have h1 : ¬ (uid.length ≠ 0 ∧ pack (Elem.int i :: t) = pack [Elem.str uid]) :=
      fun hh => hne uid [] hh.2
    have h3 : ¬ HasPrefix (pack (Elem.int i :: t)) (pack [Elem.str r, Elem.str ns]) = true :=
      hnp r _
    rw [if_neg h1, if_neg h3]
    rfl

theorem uid_frame {pack : Tuple → GoString} (hsd : SelfDelimiting pack) {b b1 : Bucket}
    (hb : b.Sorted) {o : Op} {u : GoString} (hi : o.index < 2 ^ 64) (hu : o.uid ≠ u)
    (h : o.apply pack b = .ok b1) :
    b1.Get (pack [Elem.str u]) = b.Get (pack [Elem.str u]) := by
  have hinj := packInjective_of_selfDelimiting hsd
  cases o with
  | Create r ns n uid j cur =>
    rw [get_create (show BoltArchiver.Create pack b r ns n uid j cur = .ok b1 from h)]
    have h1 : ¬ (uid.length ≠ 0 ∧ pack [Elem.str u] = pack [Elem.str uid]) :=
      fun hh => hu (uid_key_inj hinj hh.2).symm
    have h2 : ¬ pack [Elem.str u] = pack (keyByType r ns n j) :=
      fun hh => versions_ne_uid hinj hi hh.symm
    have h3 : ¬ pack [Elem.str u] = pack (keyByIndex r ns n j 0) :=
      fun hh => index_ne_uid hinj 0 hi hh.symm
    rw [if_neg h1, if_neg h2, if_neg h3]
  | Update r ns n uid j cur =>
    rw [get_update hb (show BoltArchiver.Update pack b r ns n uid j cur = .ok b1 from h)]
    have h1 : ¬ (uid.length ≠ 0 ∧ pack [Elem.str u] = pack [Elem.str uid]) :=
      fun hh => hu (uid_key_inj hinj hh.2).symm
    have h2 : ¬ pack [Elem.str u] = pack (keyByType r ns n j) :=
      fun hh => versions_ne_uid hinj hi hh.symm
    have h3 : ¬ pack [Elem.str u] = pack (keyByIndex r ns n j 1) :=
      fun hh => index_ne_uid hinj 1 hi hh.symm
    rw [if_neg h1, if_neg h2, if_neg (uid_not_hasPrefix_pair hsd u r ns), if_neg h3]
  | Delete r ns n uid j =>
    rw [get_deleteOp hb (show BoltArchiver.Delete pack b r ns n uid j = .ok b1 from h)]
    have h1 : ¬ (uid.length ≠ 0 ∧ pack [Elem.str u] = pack [Elem.str uid]) :=
      fun hh => hu (uid_key_inj hinj hh.2).symm
    have h3 : ¬ pack [Elem.str u] = pack (keyByIndex r ns n j 2) :=
      fun hh => index_ne_uid hinj 2 hi hh.symm
    rw [if_neg h1, if_neg (uid_not_hasPrefix_pair hsd u r ns), if_neg h3]

theorem uid_frame_run {pack : Tuple → GoString} (hsd : SelfDelimiting pack) {b b1 : Bucket}
    (hb : b.Sorted) {ops : List Op} {u : GoString} (hi : ∀ o ∈ ops, o.index < 2 ^ 64)
    (hu : ∀ o ∈ ops, o.uid ≠ u) (h : runOps pack b ops = .ok b1) :
    b1.Get (pack [Elem.str u]) = b.Get (pack [Elem.str u]) := by
  induction ops generalizing b with
  | nil => cases h; rfl
  | cons o ops ih =>
    simp only [runOps] at h
    split at h
    · cases h
    · rename_i b2 h2
      have ho := List.mem_cons_self o ops
      rw [ih (sorted_apply hb h2) (fun o' ho' => hi o' (List.mem_cons_of_mem _ ho'))
        (fun o' ho' => hu o' (List.mem_cons_of_mem _ ho')) h]
      exact uid_frame hsd hb (hi o ho) (hu o ho) h2

theorem uid_after {pack : Tuple → GoString} {b b1 : Bucket} (hb : b.Sorted) {o : Op}
    (hu : o.uid ≠ []) (h : o.apply pack b = .ok b1) :
    b1.Get (pack [Elem.str o.uid]) =
      if o.isWrite = true then some (pack [Elem.int o.index]) else none := by
  cases o with
  | Create r ns n uid j cur =>
    have hlen : uid.length ≠ 0 := fun h0 => hu (List.length_eq_zero.mp h0)
    show b1.Get (pack [Elem.str uid]) = if true = true then some (pack [Elem.int j]) else none
    rw [get_create (show BoltArchiver.Create pack b r ns n uid j cur = .ok b1 from h),
      if_pos ⟨hlen, rfl⟩, if_pos rfl]
  | Update r ns n uid j cur =>
    have hlen : uid.length ≠ 0 := fun h0 => hu (List.length_eq_zero.mp h0)
    show b1.Get (pack [Elem.str uid]) = if true = true then some (pack [Elem.int j]) else none
    rw [get_update hb (show BoltArchiver.Update pack b r ns n uid j cur = .ok b1 from h),
      if_pos ⟨hlen, rfl⟩, if_pos rfl]
  | Delete r ns n uid j =>
    have hlen : uid.length ≠ 0 := fun h0 => hu (List.length_eq_zero.mp h0)
    show b1.Get (pack [Elem.str uid]) = if false = true then some (pack [Elem.int j]) else none
    rw [get_deleteOp hb (show BoltArchiver.Delete pack b r ns n uid j = .ok b1 from h),
      if_pos ⟨hlen, rfl⟩, if_neg Bool.false_ne_true]

/-! ## Window arithmetic -/

theorem watcher_window_of_failure (st : RunState) (f : WatchEnd) (hf : f ≠ WatchEnd.noError)
    (hw : st.snapshotWindow ≤ 1000) :
    (Run.watcher st f).snapshotWindow = st.snapshotWindow * 9 / 10 := by
  have h9 : mul64 st.snapshotWindow 9 = st.snapshotWindow * 9 := by
    unfold mul64
    apply Nat.mod_eq_of_lt
    have : (2 : Nat) ^ 64 = 18446744073709551616 := by norm_num
    omega
  cases f with
  | noError => exact absurd rfl hf
  | etcdError index => simp only [Run.watcher, h9]
  | otherError => simp only [Run.watcher, h9]

theorem watcher_window_iterate (fs : List WatchEnd) (st : RunState)
    (hf : ∀ f ∈ fs, f ≠ WatchEnd.noError) (hw : st.snapshotWindow ≤ 1000) :
    (fs.foldl Run.watcher st).snapshotWindow =
      (fun w => w * 9 / 10)^[fs.length] st.snapshotWindow := by
  induction fs generalizing st with
  | nil => rfl
  | cons f fs ih =>
    have h1 := watcher_window_of_failure st f (hf f (List.mem_cons_self _ _)) hw
    rw [List.foldl_cons, List.length_cons, Function.iterate_succ_apply,
      ih (Run.watcher st f) (fun g hg => hf g (List.mem_cons_of_mem _ hg))
        (by rw [h1]; omega), h1]

/-! ## Splitting a path -/

theorem cut_none {sep : Nat} {s : GoString} (h : sep ∉ s) : cut sep s = none := by
  induction s with
  | nil => rfl
  | cons c s ih =>
    have hc : c ≠ sep := fun e => h (by rw [e]; exact List.mem_cons_self _ _)
    have hs : sep ∉ s := fun e => h (List.mem_cons_of_mem _ e)
    simp [cut, hc, ih hs]

theorem cut_append {sep : Nat} {a : GoString} (h : sep ∉ a) (rest : GoString) :
    cut sep (a ++ sep :: rest) = some (a, rest) := by
  induction a with
  | nil => simp [cut]
  | cons c a ih =>
    have hc : c ≠ sep := fun e => h (by rw [e]; exact List.mem_cons_self _ _)
    have hs : sep ∉ a := fun e => h (List.mem_cons_of_mem _ e)
    simp [cut, hc, ih hs]

theorem goIndex_zero {α : Type} (a : α) (l : List α) : goIndex (a :: l) 0 = .ok a := rfl

theorem goIndex_succ {α : Type} (a : α) (l : List α) (i : Nat) :
    goIndex (a :: l) (i + 1) = goIndex l i := rfl

theorem goIndex_nil {α : Type} (i : Nat) :
    goIndex ([] : List α) i = .error Panic.indexRange := rfl

theorem goSliceFrom_one {α : Type} (a : α) (l : List α) : goSliceFrom (a :: l) 1 = .ok l := by
  simp [goSliceFrom]

/-- The bounds-checked reading of `KeyForPath` agrees with the structural
one on every input. -/
theorem keyForPathIndexed_eq (m : PrefixMap) (path : GoString) :
    m.KeyForPathIndexed path = m.KeyForPath path := by
  cases path with
  | nil => rfl
  | cons c tail =>
    simp only [PrefixMap.KeyForPathIndexed, PrefixMap.KeyForPath, goSliceFrom_one]
    generalize SplitN tail slash 4 = segs
    rcases segs with _ | ⟨a, _ | ⟨b, rest⟩⟩
    · simp
    · simp
    · have h2 : ¬ ((a :: b :: rest).length < 2) := by simp
      rw [if_neg h2]
      simp only [goIndex_zero, goSliceFrom_one]
      cases m.lookup a with
      | none => rfl
      | some base =>
        simp only []
        cases base.lookup b with
        | none => rfl
        | some t =>
          simp only []
          rcases rest with _ | ⟨x, _ | ⟨y, _ | ⟨z, w⟩⟩⟩ <;> cases t.Namespaced <;>
            simp [goIndex_zero, goIndex_succ]

/-! ## Path mapper -/

/-- C1 (defect of the code): the path `/kubernetes.io/pods/default` names the
namespaced entry `pods` with one piece after the type instead of two, and
`KeyForPath` on the default table returns `ok = true` for it, with resource
`pods` and empty namespace and name. -/
theorem C1_wrong_arity_is_accepted :
    defaultPrefixMap.KeyForPath (ascii "/kubernetes.io/pods/default")
      = .ok ⟨ascii "pods", [], [], true⟩ := by
  decide

/-! ## Event translation -/

/-- C3: a create, set or compareAndSwap event with both nodes present and a
mapped path makes exactly two calls on the driver, in this order: the
previous version (`Update` when its created and modified indices differ,
else `Create`, at `PrevNode.ModifiedIndex` with `PrevNode.Value`) and then
`Update` at `Node.ModifiedIndex` with `Node.Value`; `OnEvent` returns
normally with index `Node.ModifiedIndex`. -/
theorem C3_replacement_translation {σ ε : Type} (A : Interface σ ε)
    (mapper : GoString → Except Panic KeyResult) (unmarshal : GoString → Option GoString)
    (resp : etcd.Response) (node prevNode : etcd.Node) (k : KeyResult)
    (st : σ) (log : List Call)
    (hact : resp.Action = ascii "create" ∨ resp.Action = ascii "set" ∨
      resp.Action = ascii "compareAndSwap")
    (hnode : resp.Node = some node) (hprev : resp.PrevNode = some prevNode)
    (hmap : mapper node.Key = .ok k) (hok : k.ok = true) :
    ∃ (err : Option (Err ε)) (st1 : σ),
      (Source.mk (recording A) mapper unmarshal).OnEvent resp (st, log) =
        .ok ((node.ModifiedIndex, err),
          (st1, log ++
            [ (if prevNode.CreatedIndex ≠ prevNode.ModifiedIndex then
                Call.Update k.resource k.namespace_ k.name
                  (ExtractUID unmarshal prevNode.Value).1 prevNode.ModifiedIndex prevNode.Value
              else
                Call.Create k.resource k.namespace_ k.name
                  (ExtractUID unmarshal prevNode.Value).1 prevNode.ModifiedIndex prevNode.Value),
              Call.Update k.resource k.namespace_ k.name
                (ExtractUID unmarshal node.Value).1 node.ModifiedIndex node.Value ])) := by
  have hA : resp.Action ∉ [ascii "expire", ascii "delete", ascii "compareAndDelete"] := by
    rcases hact with h | h | h <;> rw [h] <;> decide
  have hB : resp.Action ∈ [ascii "create", ascii "set", ascii "compareAndSwap"] := by
    rcases hact with h | h | h <;> rw [h] <;> decide
  simp only [Source.OnEvent, hnode, hprev, hmap, hok, Source.translate, if_neg hA, if_pos hB]
  by_cases hc : prevNode.CreatedIndex = prevNode.ModifiedIndex
  · simp [hc, recording]
  · simp [hc, recording]

/-- Witness of C3: scenario 2 on the logging driver archives the previous
version as a `Create` at 10 and then an `Update` at 15. -/
theorem C3_replacement_translation_witness :
    ∃ (err : Option (Err Empty)) (st1 : List Call),
      (Source.mk (recording LogArchiver) defaultPrefixMap.KeyForPath sampleUnmarshal).OnEvent
          eventSet ([], []) =
        .ok ((node15.ModifiedIndex, err),
          (st1, [] ++
            [ (if node10.CreatedIndex ≠ node10.ModifiedIndex then
                Call.Update podResult.resource podResult.namespace_ podResult.name
                  (ExtractUID sampleUnmarshal node10.Value).1 node10.ModifiedIndex node10.Value
              else
                Call.Create podResult.resource podResult.namespace_ podResult.name
                  (ExtractUID sampleUnmarshal node10.Value).1 node10.ModifiedIndex node10.Value),
              Call.Update podResult.resource podResult.namespace_ podResult.name
                (ExtractUID sampleUnmarshal node15.Value).1 node15.ModifiedIndex
                node15.Value ])) :=
  C3_replacement_translation LogArchiver defaultPrefixMap.KeyForPath sampleUnmarshal
    eventSet node15 node10 podResult [] [] (by decide) rfl rfl (by decide) rfl

/-- C4 (defect of the code): on an event with `Node` absent and `PrevNode`
present, `OnEvent` reads `resp.Node.ModifiedIndex` and fails with a nil
dereference instead of returning an error. -/
theorem C4_absent_node_is_dereferenced :
    sampleSource.OnEvent eventPrevOnly [] = .error Panic.nilDeref := by
  decide

/-- C8: for an expire, delete or compareAndDelete event with a mapped path,
when both nodes are present `OnEvent` makes exactly one call,
`Delete(resource, ns, name, uid(PrevNode.Value), Node.ModifiedIndex)`, and
returns that call's error; when only `Node` is present it makes no call and
returns a non-nil error. -/
theorem C8_deletion_translation {σ ε : Type} (A : Interface σ ε)
    (mapper : GoString → Except Panic KeyResult) (unmarshal : GoString → Option GoString)
    (resp : etcd.Response) (node : etcd.Node) (k : KeyResult) (st : σ) (log : List Call)
    (hact : resp.Action = ascii "expire" ∨ resp.Action = ascii "delete" ∨
      resp.Action = ascii "compareAndDelete")
    (hnode : resp.Node = some node)
    (hmap : mapper node.Key = .ok k) (hok : k.ok = true) :
    (∀ prevNode : etcd.Node, resp.PrevNode = some prevNode →
      (Source.mk (recording A) mapper unmarshal).OnEvent resp (st, log) =
        .ok ((node.ModifiedIndex,
            (A.Delete k.resource k.namespace_ k.name (ExtractUID unmarshal prevNode.Value).1
              node.ModifiedIndex st).1.map Err.driver),
          ((A.Delete k.resource k.namespace_ k.name (ExtractUID unmarshal prevNode.Value).1
              node.ModifiedIndex st).2,
            log ++ [Call.Delete k.resource k.namespace_ k.name
              (ExtractUID unmarshal prevNode.Value).1 node.ModifiedIndex]))) ∧
    (resp.PrevNode = none →
      ∃ e : Err ε,
        (Source.mk (recording A) mapper unmarshal).OnEvent resp (st, log) =
          .ok ((node.ModifiedIndex, some e), (st, log))) := by
  have hA : resp.Action ∈ [ascii "expire", ascii "delete", ascii "compareAndDelete"] := by
    rcases hact with h | h | h <;> rw [h] <;> decide
  constructor
  · intro prevNode hprev
    simp [Source.OnEvent, hnode, hprev, hmap, hok, Source.translate, hA, recording]
  · intro hprev
    simp [Source.OnEvent, hnode, hprev, hmap, hok, Source.translate, hA]

/-- Witness of C8: on the logging driver the delete event of scenario 4 makes
the single call `Delete(pods, default, p1, U1, 25)`, and the same event
without its previous node makes no call and returns an error. -/
theorem C8_deletion_translation_witness :
    (Source.mk (recording LogArchiver) defaultPrefixMap.KeyForPath sampleUnmarshal).OnEvent
        eventDelete ([], []) =
      .ok ((node25.ModifiedIndex,
          (LogArchiver.Delete podResult.resource podResult.namespace_ podResult.name
            (ExtractUID sampleUnmarshal node15.Value).1
            node25.ModifiedIndex []).1.map Err.driver),
        ((LogArchiver.Delete podResult.resource podResult.namespace_ podResult.name
            (ExtractUID sampleUnmarshal node15.Value).1 node25.ModifiedIndex []).2,
          [] ++ [Call.Delete podResult.resource podResult.namespace_ podResult.name
            (ExtractUID sampleUnmarshal node15.Value).1 node25.ModifiedIndex])) ∧
    ∃ e : Err Empty,
      (Source.mk (recording LogArchiver) defaultPrefixMap.KeyForPath sampleUnmarshal).OnEvent
          eventDeleteNoPrev ([], []) =
        .ok ((node25.ModifiedIndex, some e), ([], [])) :=
  ⟨(C8_deletion_translation LogArchiver defaultPrefixMap.KeyForPath sampleUnmarshal
      eventDelete node25 podResult [] [] (by decide) rfl (by decide) rfl).1 node15 rfl,
    (C8_deletion_translation LogArchiver defaultPrefixMap.KeyForPath sampleUnmarshal
      eventDeleteNoPrev node25 podResult [] [] (by decide) rfl (by decide) rfl).2 rfl⟩

/-- C9: for a create, set or compareAndSwap event with `Node` present,
`PrevNode` absent and a mapped path, `OnEvent` makes exactly one call,
`Create(resource, ns, name, uid(Node.Value), Node.CreatedIndex, Node.Value)`,
and returns `Node.ModifiedIndex` with that call's error. -/
theorem C9_genesis_translation {σ ε : Type} (A : Interface σ ε)
    (mapper : GoString → Except Panic KeyResult) (unmarshal : GoString → Option GoString)
    (resp : etcd.Response) (node : etcd.Node) (k : KeyResult) (st : σ) (log : List Call)
    (hact : resp.Action = ascii "create" ∨ resp.Action = ascii "set" ∨
      resp.Action = ascii "compareAndSwap")
    (hnode : resp.Node = some node) (hprev : resp.PrevNode = none)
    (hmap : mapper node.Key = .ok k) (hok : k.ok = true) :
    (Source.mk (recording A) mapper unmarshal).OnEvent resp (st, log) =
      .ok ((node.ModifiedIndex,
          (A.Create k.resource k.namespace_ k.name (ExtractUID unmarshal node.Value).1
            node.CreatedIndex node.Value st).1.map Err.driver),
        ((A.Create k.resource k.namespace_ k.name (ExtractUID unmarshal node.Value).1
            node.CreatedIndex node.Value st).2,
          log ++ [Call.Create k.resource k.namespace_ k.name
            (ExtractUID unmarshal node.Value).1 node.CreatedIndex node.Value])) := by
  have hA : resp.Action ∉ [ascii "expire", ascii "delete", ascii "compareAndDelete"] := by
    rcases hact with h | h | h <;> rw [h] <;> decide
  have hB : resp.Action ∈ [ascii "create", ascii "set", ascii "compareAndSwap"] := by
    rcases hact with h | h | h <;> rw [h] <;> decide
  simp [Source.OnEvent, hnode, hprev, hmap, hok, Source.translate, hA, hB, recording]

/-- Witness of C9: a `set` event carrying only `node12` is archived as a
`Create` at the created index 10 and reports the modified index 12. -/
theorem C9_genesis_translation_witness :
    (Source.mk (recording LogArchiver) defaultPrefixMap.KeyForPath sampleUnmarshal).OnEvent
        ⟨ascii "set", some node12, none, 12⟩ ([], []) =
      .ok ((12, none),
        ([Call.Create (ascii "pods") (ascii "default") (ascii "p1") (ascii "U1") 10 payloadU1],
          [] ++ [Call.Create (ascii "pods") (ascii "default") (ascii "p1") (ascii "U1") 10
            payloadU1])) :=
  C9_genesis_translation LogArchiver defaultPrefixMap.KeyForPath sampleUnmarshal
    ⟨ascii "set", some node12, none, 12⟩ node12 podResult [] [] (by decide) rfl rfl
    (by decide) rfl

/-! ## The watch loop -/

/-- C7 (as stated, refuted): after the consumer processed the create event of
scenario 1, for which `OnEvent` returns index 10 and no error, the variable
`recentIndex` still holds 9001, so the next watch does not start at 10. -/
theorem C7_recent_index_not_advanced :
    ∃ a1 : List Call,
      sampleSource.OnEvent eventCreate [] = .ok ((10, none), a1) ∧
      ∃ st1 : RunState × LoopNext,
        Run.onResponse sampleSource ⟨9001, 1000, 0⟩ eventCreate [] = .ok (st1, a1) ∧
        Run.watchFrom st1.1 = 9001 ∧ Run.watchFrom st1.1 ≠ 10 := by
  refine ⟨_, rfl, _, rfl, ?_, ?_⟩ <;> decide

/-- C7 (amended): when the consumer processes an event for which `OnEvent`
returns a non-zero index `i` and no error, the loop goes on with
`lowestIndex = i` while `recentIndex` and `snapshotWindow` keep their
values, so the next watch still starts at the old `recentIndex`. -/
theorem C7_consumer_records_lowest_index {σ ε : Type} (s : Source σ ε) (st : RunState)
    (resp : etcd.Response) (a a1 : σ) (i : Nat)
    (hev : s.OnEvent resp a = .ok ((i, none), a1)) (hi : i ≠ 0) :
    Run.onResponse s st resp a =
        .ok (({ st with lowestIndex := i }, LoopNext.continue_), a1) ∧
      Run.watchFrom { st with lowestIndex := i } = Run.watchFrom st ∧
      ({ st with lowestIndex := i } : RunState).snapshotWindow = st.snapshotWindow := by
  simp [Run.onResponse, hev, Run.consumer, hi, Run.watchFrom]

/-- Witness of C7 (amended): scenario 1 processed in the state reached after
a horizon of 10000. -/
theorem C7_consumer_records_lowest_index_witness :
    Run.onResponse sampleSource (Run.init 10000) eventCreate [] =
        .ok (({ Run.init 10000 with lowestIndex := 10 }, LoopNext.continue_),
          [Call.Create (ascii "pods") (ascii "default") (ascii "p1") (ascii "U1") 10
            payloadU1]) ∧
      Run.watchFrom { Run.init 10000 with lowestIndex := 10 } = Run.watchFrom (Run.init 10000) ∧
      ({ Run.init 10000 with lowestIndex := 10 } : RunState).snapshotWindow =
        (Run.init 10000).snapshotWindow :=
  C7_consumer_records_lowest_index sampleSource (Run.init 10000) eventCreate []
    [Call.Create (ascii "pods") (ascii "default") (ascii "p1") (ascii "U1") 10 payloadU1]
    10 (by decide) (by decide)

/-! ## Archive indexer -/

/-- C2 (defect of the code): in an archive that holds the versions entry
`(pods, default, p2, 7)`, a successful `Update` of `(pods, default, p1)` at
index 15 removes that entry of the other name `p2`: the purge runs over the
two-element tuple `(resource, namespace)`. -/
theorem C2_purge_removes_other_names :
    ∃ b0 b1 : Bucket,
      BoltArchiver.Create tuplePack [] (ascii "pods") (ascii "default") (ascii "p2") [] 7
          payloadU1 = .ok b0 ∧
      b0.Get (tuplePack (keyByType (ascii "pods") (ascii "default") (ascii "p2") 7)) = some [] ∧
      BoltArchiver.Update tuplePack b0 (ascii "pods") (ascii "default") (ascii "p1")
          (ascii "U1") 15 payloadU1v2 = .ok b1 ∧
      b1.Get (tuplePack (keyByType (ascii "pods") (ascii "default") (ascii "p2") 7)) = none := by
  refine ⟨_, _, rfl, ?_, rfl, ?_⟩ <;> decide

/-- C5 (defect of the code): after the create of scenario 1 and the delete of
scenario 4 the archive holds the two event-log entries and nothing else; in
particular the deleted-by-namespace key `(pods, default, 25, U1)` is absent. -/
theorem C5_delete_writes_no_deleted_index :
    ∃ b0 b1 : Bucket,
      BoltArchiver.Create tuplePack [] (ascii "pods") (ascii "default") (ascii "p1")
          (ascii "U1") 10 payloadU1 = .ok b0 ∧
      BoltArchiver.Delete tuplePack b0 (ascii "pods") (ascii "default") (ascii "p1")
          (ascii "U1") 25 = .ok b1 ∧
      b1.keys =
        [tuplePack (keyByIndex (ascii "pods") (ascii "default") (ascii "p1") 10 0),
          tuplePack (keyByIndex (ascii "pods") (ascii "default") (ascii "p1") 25 2)] ∧
      b1.Get (tuplePack [Elem.str (ascii "pods"), Elem.str (ascii "default"), Elem.int 25,
          Elem.str (ascii "U1")]) = none := by
  refine ⟨_, _, rfl, rfl, ?_, ?_⟩ <;> decide

/-- C10: after a successful `Create` the event-log key
`(index, resource, namespace, name, [0])` holds the payload, the versions key
`(resource, namespace, name, index)` holds the empty value, the key `(uid)`
holds the encoding of `(index)` when `uid` is non-empty and is left as it
was when `uid` is empty, and every other key is unchanged. The codec is
assumed injective. -/
theorem C10_create_postcondition (pack : Tuple → GoString) (hinj : PackInjective pack)
    (b b1 : Bucket) (resource namespace_ name uid : GoString) (index : Nat)
    (current : GoString) (hindex : index < 2 ^ 64)
    (h : BoltArchiver.Create pack b resource namespace_ name uid index current = .ok b1) :
    b1.Get (pack (keyByIndex resource namespace_ name index 0)) = some current ∧
    b1.Get (pack (keyByType resource namespace_ name index)) = some [] ∧
    (uid ≠ [] → b1.Get (pack [Elem.str uid]) = some (pack [Elem.int index])) ∧
    (uid = [] → b1.Get (pack [Elem.str uid]) = b.Get (pack [Elem.str uid])) ∧
    (∀ k : GoString, k ≠ pack (keyByIndex resource namespace_ name index 0) →
      k ≠ pack (keyByType resource namespace_ name index) →
      (uid ≠ [] → k ≠ pack [Elem.str uid]) → b1.Get k = b.Get k) := by
  have hIT : pack (keyByIndex resource namespace_ name index 0) ≠
      pack (keyByType resource namespace_ name index) := fun e => by
    have := hinj _ _ (wf_keyByIndex _ _ _ hindex 0) (wf_keyByType _ _ _ hindex) e
    simp [keyByIndex, keyByType] at this
  have hUI : pack [Elem.str uid] ≠ pack (keyByIndex resource namespace_ name index 0) :=
    fun e => by
      have := hinj _ _ (wf_uid uid) (wf_keyByIndex _ _ _ hindex 0) e
      simp [keyByIndex] at this
  have hUT : pack [Elem.str uid] ≠ pack (keyByType resource namespace_ name index) :=
    fun e => by
      have := hinj _ _ (wf_uid uid) (wf_keyByType _ _ _ hindex) e
      simp [keyByType] at this
  have hb1 := create_ok h
  by_cases hu : uid = []
  · have hlen : ¬ uid.length ≠ 0 := by simp [hu]
    rw [if_neg hlen] at hb1
    subst hb1
    refine ⟨?_, ?_, fun hne => absurd hu hne, fun _ => ?_, fun k h1 h2 _ => ?_⟩
    · rw [get_insert, if_neg hIT, get_insert, if_pos rfl]
    · rw [get_insert, if_pos rfl]
    · rw [get_insert, if_neg hUT, get_insert, if_neg hUI]
    · rw [get_insert, if_neg h2, get_insert, if_neg h1]
  · have hlen : uid.length ≠ 0 := by
      intro h0; exact hu (List.length_eq_zero.mp h0)
    rw [if_pos hlen] at hb1
    subst hb1
    refine ⟨?_, ?_, fun _ => ?_, fun he => absurd he hu, fun k h1 h2 h3 => ?_⟩
    · rw [get_insert, if_neg (Ne.symm hUI), get_insert, if_neg hIT, get_insert, if_pos rfl]
    · rw [get_insert, if_neg (Ne.symm hUT), get_insert, if_pos rfl]
    · rw [get_insert, if_pos rfl]
    · rw [get_insert, if_neg (h3 hu), get_insert, if_neg h2, get_insert, if_neg h1]

/-- Witness of C10: scenario 1 on the empty archive with the modelled codec. -/
theorem C10_create_postcondition_witness :
    ∃ b1 : Bucket,
      BoltArchiver.Create tuplePack [] (ascii "pods") (ascii "default") (ascii "p1")
          (ascii "U1") 10 payloadU1 = .ok b1 ∧
      b1.Get (tuplePack (keyByIndex (ascii "pods") (ascii "default") (ascii "p1") 10 0))
        = some payloadU1 ∧
      b1.Get (tuplePack (keyByType (ascii "pods") (ascii "default") (ascii "p1") 10))
        = some [] ∧
      b1.Get (tuplePack [Elem.str (ascii "U1")]) = some (tuplePack [Elem.int 10]) :=
  ⟨_, rfl,
    (C10_create_postcondition tuplePack tuplePack_injective [] _ (ascii "pods")
      (ascii "default") (ascii "p1") (ascii "U1") 10 payloadU1 (by decide) rfl).1,
    (C10_create_postcondition tuplePack tuplePack_injective [] _ (ascii "pods")
      (ascii "default") (ascii "p1") (ascii "U1") 10 payloadU1 (by decide) rfl).2.1,
    (C10_create_postcondition tuplePack tuplePack_injective [] _ (ascii "pods")
      (ascii "default") (ascii "p1") (ascii "U1") 10 payloadU1 (by decide) rfl).2.2.1
      (by decide)⟩

/-- C6 (as stated, refuted): after a `Create` of `p1` at index 10 followed by
a `Create` of `p1` at index 5, both successful, the scan of the versions
index holds the entries 5 and 10 in this order, so its last entry is 10
although the most recent operation on the name is the `Create` at 5. -/
theorem C6_last_entry_not_last_create :
    ∃ b : Bucket,
      runOps tuplePack [] opsCreateBackwards = .ok b ∧
      versionsScan tuplePack b (ascii "pods") (ascii "default") (ascii "p1") =
        [ tuplePack (keyByType (ascii "pods") (ascii "default") (ascii "p1") 5),
          tuplePack (keyByType (ascii "pods") (ascii "default") (ascii "p1") 10) ] ∧
      (versionsScan tuplePack b (ascii "pods") (ascii "default") (ascii "p1")).getLast? ≠
        some (tuplePack (keyByType (ascii "pods") (ascii "default") (ascii "p1") 5)) := by
  refine ⟨_, rfl, ?_, ?_⟩ <;> decide

/-- C6 (amended): starting from the empty archive, after any sequence of
successful operations the scan of the versions index under
`(resource, namespace, name)` is the list of the versions keys of strictly
ascending indices `is`. When the most recent operation on that name was a
`Create` or `Update` with index `i`, no `Update` or `Delete` of the same
`(resource, namespace)` came after it, and it was an `Update` or no earlier
`Create` or `Update` of the name carried an index above `i`, then `is` is
non-empty and its last entry is `i`. The codec is assumed self-delimiting and
order-preserving. -/
theorem C6_versions_scan_ascending (pack : Tuple → GoString) (hsd : SelfDelimiting pack)
    (hop : OrderPreserving pack) (ops : List Op) (b : Bucket)
    (resource namespace_ name : GoString)
    (hindex : ∀ o ∈ ops, o.index < 2 ^ 64) (hrun : runOps pack [] ops = .ok b) :
    ∃ is : List Nat,
      is.Pairwise (fun x y => x < y) ∧
      versionsScan pack b resource namespace_ name =
        is.map (fun j => pack (keyByType resource namespace_ name j)) ∧
      ∀ (pre : List Op) (o : Op) (post : List Op),
        ops = pre ++ o :: post → o.isWrite = true → o.target = (resource, namespace_, name) →
        (∀ o' ∈ post, o'.target ≠ (resource, namespace_, name)) →
        (∀ o' ∈ post, o'.purges = true →
          (o'.target.1, o'.target.2.1) ≠ (resource, namespace_)) →
        (o.isUpdate = true ∨
          ∀ o' ∈ pre, o'.isWrite = true → o'.target = (resource, namespace_, name) →
            o'.index ≤ o.index) →
        is.getLast? = some o.index := by
  have hinj := packInjective_of_selfDelimiting hsd
  have hnil : Bucket.Sorted [] := List.Pairwise.nil
  have hb : b.Sorted := sorted_runOps hnil hrun
  have hor0 : ∀ k, Bucket.Get [] k ≠ none → KeyOrigin pack [] k := fun k hk => absurd rfl hk
  have hor : ∀ k, b.Get k ≠ none → KeyOrigin pack ops k := by
    have := origin_runOps hor0 hnil hindex hrun
    simpa using this
  have hkeys : ∀ k ∈ versionsScan pack b resource namespace_ name,
      ∃ j : Nat, j < 2 ^ 64 ∧ k = pack (keyByType resource namespace_ name j) := by
    intro k hk
    obtain ⟨hp, hg⟩ := (mem_versionsScan hb resource namespace_ name k).mp hk
    obtain ⟨o, _, _, _, hi, hko⟩ := origin_of_hasPrefix hsd (hor k hg) hp
    exact ⟨o.index, hi, hko⟩
  obtain ⟨is, hasc, hlt, hmap⟩ := ascending_of_sorted_keys hop resource namespace_ name _
    (pairwise_versionsScan hb resource namespace_ name) hkeys
  refine ⟨is, hasc, hmap, ?_⟩
  intro pre o post hops hw htgt hpost hpurge hmax
  subst hops
  have hio : o.index < 2 ^ 64 := hindex o (by simp)
  -- split the run at `o`
  rw [runOps_append] at hrun
  split at hrun
  · cases hrun
  · rename_i bpre hpre
    simp only [runOps] at hrun
    split at hrun
    · cases hrun
    · rename_i bo hbo
      have hsp : bpre.Sorted := sorted_runOps hnil hpre
      have hso : bo.Sorted := sorted_apply hsp hbo
      have horp : ∀ k, bpre.Get k ≠ none → KeyOrigin pack pre k := by
        have := origin_runOps hor0 hnil
          (fun o' ho' => hindex o' (List.mem_append_left _ ho')) hpre
        simpa using this
      have hframe : ∀ j, j < 2 ^ 64 →
          b.Get (pack (keyByType resource namespace_ name j)) =
            bo.Get (pack (keyByType resource namespace_ name j)) := fun j hj =>
        versions_frame_run hsd hso hj
          (fun o' ho' => hindex o' (List.mem_append_right _ (List.mem_cons_of_mem _ ho')))
          hpost hpurge hrun
      -- the state right after `o`
      have hafter : bo.Get (pack (keyByType resource namespace_ name o.index)) ≠ none ∧
          ∀ j, j < 2 ^ 64 → bo.Get (pack (keyByType resource namespace_ name j)) ≠ none →
            j ≤ o.index := by
        cases o with
        | Create r ns n uid i cur =>
          simp only [Op.target, Prod.mk.injEq] at htgt
          obtain ⟨e1, e2, e3⟩ := htgt
          subst e1 e2 e3
          have hc : BoltArchiver.Create pack bpre r ns n uid i cur = .ok bo := hbo
          have hio' : i < 2 ^ 64 := hio
          show bo.Get (pack (keyByType r ns n i)) ≠ none ∧
            ∀ j, j < 2 ^ 64 → bo.Get (pack (keyByType r ns n j)) ≠ none → j ≤ i
          refine ⟨?_, fun j hj hg => ?_⟩
          · rw [versions_after_create hinj hio' hio' hc, if_pos rfl]
            exact Option.some_ne_none _
          · rw [versions_after_create hinj hio' hj hc] at hg
            by_cases hji : j = i
            · exact Nat.le_of_eq hji
            · rw [if_neg hji] at hg
              obtain ⟨o', ho', hw', ht', hi', hk'⟩ := origin_of_hasPrefix hsd (horp _ hg)
                (versions_hasPrefix_triple hsd r ns n hj)
              have hj' : j = o'.index := (versions_key_inj hinj hj hi' hk').2.2.2
              rcases hmax with hu | hmax
              · exact absurd hu (by simp [Op.isUpdate])
              · rw [hj']; exact hmax o' ho' hw' ht'
        | Update r ns n uid i cur =>
          simp only [Op.target, Prod.mk.injEq] at htgt
          obtain ⟨e1, e2, e3⟩ := htgt
          subst e1 e2 e3
          have hc : BoltArchiver.Update pack bpre r ns n uid i cur = .ok bo := hbo
          have hio' : i < 2 ^ 64 := hio
          show bo.Get (pack (keyByType r ns n i)) ≠ none ∧
            ∀ j, j < 2 ^ 64 → bo.Get (pack (keyByType r ns n j)) ≠ none → j ≤ i
          refine ⟨?_, fun j hj hg => ?_⟩
          · rw [versions_after_update hsd hsp hio' hio' hc, if_pos rfl]
            exact Option.some_ne_none _
          · rw [versions_after_update hsd hsp hio' hj hc] at hg
            by_cases hji : j = i
            · exact Nat.le_of_eq hji
            · rw [if_neg hji] at hg
              exact absurd rfl hg
        | Delete r ns n uid i => simp [Op.isWrite] at hw
      obtain ⟨hin, hle⟩ := hafter
      apply getLast_of_max hasc
      · have hmem : pack (keyByType resource namespace_ name o.index) ∈
            versionsScan pack b resource namespace_ name := by
          rw [mem_versionsScan hb]
          exact ⟨versions_hasPrefix_triple hsd _ _ _ hio, by rw [hframe _ hio]; exact hin⟩
        rw [hmap, List.mem_map] at hmem
        obtain ⟨j, hj, hjk⟩ := hmem
        have := (versions_key_inj hinj (hlt j hj) hio hjk).2.2.2
        rw [← this]; exact hj
      · intro j hj
        have hmem : pack (keyByType resource namespace_ name j) ∈
            versionsScan pack b resource namespace_ name := by
          rw [hmap]; exact List.mem_map_of_mem _ hj
        rw [mem_versionsScan hb] at hmem
        have hg := hmem.2
        rw [hframe _ (hlt j hj)] at hg
        exact hle j (hlt j hj) hg

/-- Witness of C6 (amended): scenarios 1 and 2 followed by the create of
another pod, on the modelled codec; the most recent operation on `p1` is the
`Update` at 15 and the scan of its versions ends with 15. -/
theorem C6_versions_scan_ascending_witness :
    ∃ b : Bucket, runOps tuplePack [] opsScenario = .ok b ∧
    ∃ is : List Nat,
      is.Pairwise (fun x y => x < y) ∧
      versionsScan tuplePack b (ascii "pods") (ascii "default") (ascii "p1") =
        is.map (fun j => tuplePack (keyByType (ascii "pods") (ascii "default") (ascii "p1") j)) ∧
      is.getLast? = some 15 := by
  refine ⟨_, rfl, ?_⟩
  obtain ⟨is, h1, h2, h3⟩ := C6_versions_scan_ascending tuplePack tuplePack_selfDelimiting
    tuplePack_orderPreserving opsScenario _ (ascii "pods") (ascii "default") (ascii "p1")
    (by decide) rfl
  exact ⟨is, h1, h2,
    h3 (opsScenario.take 2)
      (Op.Update (ascii "pods") (ascii "default") (ascii "p1") (ascii "U1") 15 payloadU1v2)
      (opsScenario.drop 3) rfl rfl rfl (by decide) (by decide) (Or.inl rfl)⟩

/-! ## Event translation, continued -/

/-- C16: for an event with `Node` present whose key the mapper rejects
(`ok = false`), whatever the action, `OnEvent` makes no call on the driver,
leaves its state as it was and returns `Node.ModifiedIndex` with a nil
error. -/
theorem C16_unmapped_path {σ ε : Type} (A : Interface σ ε)
    (mapper : GoString → Except Panic KeyResult) (unmarshal : GoString → Option GoString)
    (resp : etcd.Response) (node : etcd.Node) (k : KeyResult) (st : σ) (log : List Call)
    (hnode : resp.Node = some node)
    (hmap : mapper node.Key = .ok k) (hok : k.ok = false) :
    (Source.mk (recording A) mapper unmarshal).OnEvent resp (st, log) =
      .ok ((node.ModifiedIndex, none), (st, log)) := by
  simp [Source.OnEvent, hnode, hmap, hok]

/-- Witness of C16: scenario 5 on the logging driver with the default table. -/
theorem C16_unmapped_path_witness :
    (Source.mk (recording LogArchiver) defaultPrefixMap.KeyForPath sampleUnmarshal).OnEvent
        eventWidget ([], []) =
      .ok ((30, none), ([], [])) :=
  C16_unmapped_path LogArchiver defaultPrefixMap.KeyForPath sampleUnmarshal eventWidget
    nodeWidget ⟨ascii "widgets", [], [], false⟩ [] [] rfl (by decide) rfl

/-- C18: for a create, set or compareAndSwap event with both nodes present
and a mapped path, whatever the first call (archiving the previous version)
returns, the second call `Update(..., Node.ModifiedIndex, Node.Value)` is
made on the state the first call left; the error `OnEvent` returns is nil
exactly when both calls returned nil, and otherwise it is the composite of
the errors the calls returned, in call order. -/
theorem C18_replacement_errors {σ ε : Type} (A : Interface σ ε)
    (mapper : GoString → Except Panic KeyResult) (unmarshal : GoString → Option GoString)
    (resp : etcd.Response) (node prevNode : etcd.Node) (k : KeyResult)
    (st : σ) (log : List Call) (first second : Option ε × σ)
    (hact : resp.Action = ascii "create" ∨ resp.Action = ascii "set" ∨
      resp.Action = ascii "compareAndSwap")
    (hnode : resp.Node = some node) (hprev : resp.PrevNode = some prevNode)
    (hmap : mapper node.Key = .ok k) (hok : k.ok = true)
    (hfirst : first =
      if prevNode.CreatedIndex ≠ prevNode.ModifiedIndex then
        A.Update k.resource k.namespace_ k.name (ExtractUID unmarshal prevNode.Value).1
          prevNode.ModifiedIndex prevNode.Value st
      else
        A.Create k.resource k.namespace_ k.name (ExtractUID unmarshal prevNode.Value).1
          prevNode.ModifiedIndex prevNode.Value st)
    (hsecond : second =
      A.Update k.resource k.namespace_ k.name (ExtractUID unmarshal node.Value).1
        node.ModifiedIndex node.Value first.2) :
    ∃ err : Option (Err ε),
      (Source.mk (recording A) mapper unmarshal).OnEvent resp (st, log) =
        .ok ((node.ModifiedIndex, err),
          (second.2, log ++
            [ (if prevNode.CreatedIndex ≠ prevNode.ModifiedIndex then
                Call.Update k.resource k.namespace_ k.name
                  (ExtractUID unmarshal prevNode.Value).1 prevNode.ModifiedIndex prevNode.Value
              else
                Call.Create k.resource k.namespace_ k.name
                  (ExtractUID unmarshal prevNode.Value).1 prevNode.ModifiedIndex prevNode.Value),
              Call.Update k.resource k.namespace_ k.name
                (ExtractUID unmarshal node.Value).1 node.ModifiedIndex node.Value ])) ∧
      (err = none ↔ first.1 = none ∧ second.1 = none) ∧
      (err ≠ none → err = some (Err.aggregate (first.1.toList ++ second.1.toList))) := by
  have hA : resp.Action ∉ [ascii "expire", ascii "delete", ascii "compareAndDelete"] := by
    rcases hact with h | h | h <;> rw [h] <;> decide
  have hB : resp.Action ∈ [ascii "create", ascii "set", ascii "compareAndSwap"] := by
    rcases hact with h | h | h <;> rw [h] <;> decide
  refine ⟨NewAggregate (appendErr (appendErr [] first.1) second.1), ?_, ?_, ?_⟩
  · subst hsecond hfirst
    simp only [Source.OnEvent, hnode, hprev, hmap, hok, Source.translate, if_neg hA, if_pos hB]
    by_cases hc : prevNode.CreatedIndex = prevNode.ModifiedIndex
    · simp [hc, recording]
    · simp [hc, recording]
  · cases first.1 <;> cases second.1 <;> simp [NewAggregate, appendErr]
  · cases first.1 <;> cases second.1 <;> simp [NewAggregate, appendErr]

/-- Witness of C18: scenario 2 on a driver whose `Create` fails with `1` and
whose `Update` fails with `2`: both calls are made and the composite holds
`1, 2`. -/
theorem C18_replacement_errors_witness :
    ∃ err : Option (Err Nat),
      (Source.mk (recording failingArchiver) defaultPrefixMap.KeyForPath
          sampleUnmarshal).OnEvent eventSet ((), []) =
        .ok ((15, err),
          ((), [] ++
            [ (if node10.CreatedIndex ≠ node10.ModifiedIndex then
                Call.Update podResult.resource podResult.namespace_ podResult.name
                  (ExtractUID sampleUnmarshal node10.Value).1 node10.ModifiedIndex node10.Value
              else
                Call.Create podResult.resource podResult.namespace_ podResult.name
                  (ExtractUID sampleUnmarshal node10.Value).1 node10.ModifiedIndex node10.Value),
              Call.Update podResult.resource podResult.namespace_ podResult.name
                (ExtractUID sampleUnmarshal node15.Value).1 node15.ModifiedIndex
                node15.Value ])) ∧
      (err = none ↔ (some 1 : Option Nat) = none ∧ (some 2 : Option Nat) = none) ∧
      (err ≠ none → err = some (Err.aggregate ([1] ++ [2]))) :=
  C18_replacement_errors failingArchiver defaultPrefixMap.KeyForPath sampleUnmarshal
    eventSet node15 node10 podResult () [] (some 1, ()) (some 2, ()) (by decide) rfl rfl
    (by decide) rfl rfl rfl

/-! ## The watch loop, continued -/

/-- C14: with `W = 1000`, after `k` consecutive watch failures that follow a
state whose window is `W`, the window is the `k`-fold iterate of
`w ↦ ⌊9 w / 10⌋` on `W` (900 after the first); the reposition of a failure
that reports an etcd index uses the window already shrunk, so a first
failure reporting 12000 repositions `recentIndex` to 11100; and a watch that
ends without error resets the window to `W`. -/
theorem C14_adaptive_backoff (st : RunState) (fs : List WatchEnd)
    (hst : st.snapshotWindow = snapshotSize) (hf : ∀ f ∈ fs, f ≠ WatchEnd.noError) :
    (fs.foldl Run.watcher st).snapshotWindow =
        (fun w => w * 9 / 10)^[fs.length] snapshotSize ∧
      (fun w => w * 9 / 10)^[1] snapshotSize = 900 ∧
      (∀ index : Nat,
        (Run.watcher st (WatchEnd.etcdError index)).recentIndex =
          sub64 index (Run.watcher st (WatchEnd.etcdError index)).snapshotWindow) ∧
      (Run.watcher st (WatchEnd.etcdError 12000)).snapshotWindow = 900 ∧
      (Run.watcher st (WatchEnd.etcdError 12000)).recentIndex = 11100 ∧
      (∀ st1 : RunState, (Run.watcher st1 WatchEnd.noError).snapshotWindow = snapshotSize) := by
  have hw : st.snapshotWindow ≤ 1000 := by rw [hst]; decide
  refine ⟨?_, by decide, fun index => rfl, ?_, ?_, fun st1 => rfl⟩
  · rw [watcher_window_iterate fs st hf hw, hst]
  · rw [watcher_window_of_failure st _ (by decide) hw, hst]; decide
  · have h1 : (Run.watcher st (WatchEnd.etcdError 12000)).recentIndex =
        sub64 12000 (Run.watcher st (WatchEnd.etcdError 12000)).snapshotWindow := rfl
    rw [h1, watcher_window_of_failure st _ (by decide) hw, hst]; decide

/-- Witness of C14: scenario 6. After a horizon of 10000 the watch starts at
9001; it fails with etcd index 12000, then twice more, then succeeds. -/
theorem C14_adaptive_backoff_witness :
    Run.watchFrom (Run.init 10000) = 9001 ∧
    ([WatchEnd.etcdError 12000, WatchEnd.otherError, WatchEnd.etcdError 12000].foldl
        Run.watcher (Run.init 10000)).snapshotWindow = 729 ∧
    (Run.watcher (Run.init 10000) (WatchEnd.etcdError 12000)).recentIndex = 11100 ∧
    (Run.watcher (Run.watcher (Run.init 10000) (WatchEnd.etcdError 12000))
        WatchEnd.noError).snapshotWindow = 1000 :=
  ⟨by decide,
    (C14_adaptive_backoff (Run.init 10000)
      [WatchEnd.etcdError 12000, WatchEnd.otherError, WatchEnd.etcdError 12000] rfl
      (by decide)).1.trans (by decide),
    (C14_adaptive_backoff (Run.init 10000) [] rfl (by decide)).2.2.2.2.1,
    (C14_adaptive_backoff (Run.init 10000) [] rfl (by decide)).2.2.2.2.2 _⟩

/-- C15: for a horizon `H` (a `uint64`) and `W = 1000`, the first watch
starts at `H - W + 1` when `H > W`, computed without wrap-around, and at 1
otherwise; the start is at least 1, and at most `H` when `H ≥ 1`. -/
theorem C15_initial_position (H : Nat) (hH : H < 2 ^ 64) :
    (H > snapshotSize →
      Run.watchFrom (Run.init H) = H - snapshotSize + 1 ∧ snapshotSize ≤ H ∧
      H - snapshotSize + 1 < 2 ^ 64) ∧
    (H ≤ snapshotSize → Run.watchFrom (Run.init H) = 1) ∧
    1 ≤ Run.watchFrom (Run.init H) ∧
    (1 ≤ H → Run.watchFrom (Run.init H) ≤ H) := by
  have e : (2 : Nat) ^ 64 = 18446744073709551616 := by norm_num
  simp only [Run.watchFrom, Run.init, snapshotSize, add64, sub64, e] at *
  by_cases h : H > 1000
  · rw [if_pos h]
    refine ⟨fun _ => ⟨?_, ?_, ?_⟩, fun h2 => ?_, ?_, fun _ => ?_⟩ <;> omega
  · rw [if_neg h]
    refine ⟨fun h2 => absurd h2 h, fun _ => rfl, ?_, fun _ => ?_⟩ <;> omega

/-- Witness of C15: the horizon 10000 of scenario 6 starts the watch at 9001. -/
theorem C15_initial_position_witness :
    Run.watchFrom (Run.init 10000) = 10000 - snapshotSize + 1 ∧ snapshotSize ≤ 10000 ∧
      10000 - snapshotSize + 1 < 2 ^ 64 :=
  (C15_initial_position 10000 (by decide)).1 (by decide)

/-! ## Path mapper, continued -/

/-- C17: for a table `m` and a path `"/" + p + "/" + t + "/" + rest` with `p`
and `t` free of `/` and `m[p][t]` defined: when the entry is namespaced and
`rest = ns + "/" + name` with `ns` free of `/`, `KeyForPath` returns
`(r, ns, name, true)`; when it is not namespaced and `rest = name` is free
of `/`, it returns `(r, "", name, true)`; `r` is the entry's `ResourceName`
when that is non-empty and `t` otherwise. -/
theorem C17_mapper_result (m : PrefixMap) (p t : GoString) (base : GoMap PrefixEntry)
    (e : PrefixEntry) (hp : slash ∉ p) (ht : slash ∉ t)
    (hbase : m.lookup p = some base) (he : base.lookup t = some e) :
    (∀ ns name : GoString, e.Namespaced = true → slash ∉ ns →
      m.KeyForPath (slash :: (p ++ slash :: (t ++ slash :: (ns ++ slash :: name)))) =
        .ok ⟨if e.ResourceName ≠ [] then e.ResourceName else t, ns, name, true⟩) ∧
    (∀ name : GoString, e.Namespaced = false → slash ∉ name →
      m.KeyForPath (slash :: (p ++ slash :: (t ++ slash :: name))) =
        .ok ⟨if e.ResourceName ≠ [] then e.ResourceName else t, [], name, true⟩) := by
  have hr : (if e.ResourceName.length > 0 then e.ResourceName else t) =
      (if e.ResourceName ≠ [] then e.ResourceName else t) := by
    cases h : e.ResourceName <;> simp
  constructor
  · intro ns name hns hnsl
    have hsplit : SplitN (p ++ slash :: (t ++ slash :: (ns ++ slash :: name))) slash 4 =
        [p, t, ns, name] := by
      simp [SplitN, cut_append hp, cut_append ht, cut_append hnsl]
    simp only [PrefixMap.KeyForPath, hsplit, hbase, he, hns, if_true, hr]
  · intro name hns hnl
    have hsplit : SplitN (p ++ slash :: (t ++ slash :: name)) slash 4 = [p, t, name] := by
      simp [SplitN, cut_append hp, cut_append ht, cut_none hnl]
    simp only [PrefixMap.KeyForPath, hsplit, hbase, he, hns, hr]
    simp

/-- Witness of C17: with the default table `/kubernetes.io/controllers/ns1/rc1`
maps to `(replicationcontrollers, ns1, rc1, true)` and
`/kubernetes.io/namespaces/ns1` maps to `(namespaces, "", ns1, true)`. -/
theorem C17_mapper_result_witness :
    defaultPrefixMap.KeyForPath (ascii "/kubernetes.io/controllers/ns1/rc1") =
        .ok ⟨ascii "replicationcontrollers", ascii "ns1", ascii "rc1", true⟩ ∧
      defaultPrefixMap.KeyForPath (ascii "/kubernetes.io/namespaces/ns1") =
        .ok ⟨ascii "namespaces", [], ascii "ns1", true⟩ :=
  ⟨(C17_mapper_result defaultPrefixMap (ascii "kubernetes.io") (ascii "controllers")
      [ (ascii "namespaces", ⟨false, []⟩),
        (ascii "controllers", ⟨true, ascii "replicationcontrollers"⟩),
        (ascii "pods", ⟨true, []⟩) ]
      ⟨true, ascii "replicationcontrollers"⟩ (by decide) (by decide) rfl rfl).1
      (ascii "ns1") (ascii "rc1") rfl (by decide),
    (C17_mapper_result defaultPrefixMap (ascii "kubernetes.io") (ascii "namespaces")
      [ (ascii "namespaces", ⟨false, []⟩),
        (ascii "controllers", ⟨true, ascii "replicationcontrollers"⟩),
        (ascii "pods", ⟨true, []⟩) ]
      ⟨false, []⟩ (by decide) (by decide) rfl rfl).2
      (ascii "ns1") rfl (by decide)⟩

/-- C20: on every table and every path of length at least 1, whatever its
first byte, `KeyForPath` returns a result and none of its slice and index
expressions is out of range; on the empty path the slice `path[1:]` is out
of range and the call fails at run time. -/
theorem C20_keyForPath_total_on_nonempty (m : PrefixMap) :
    (∀ path : GoString, 1 ≤ path.length →
      ∃ r : KeyResult, m.KeyForPathIndexed path = .ok r ∧ m.KeyForPath path = .ok r) ∧
    m.KeyForPathIndexed [] = .error Panic.sliceBounds ∧
    m.KeyForPath [] = .error Panic.sliceBounds := by
  refine ⟨fun path hlen => ?_, rfl, rfl⟩
  rw [keyForPathIndexed_eq]
  cases path with
  | nil => simp at hlen
  | cons c tail =>
    simp only [PrefixMap.KeyForPath]
    split
    · split
      · exact ⟨_, rfl, rfl⟩
      · split
        · exact ⟨_, rfl, rfl⟩
        · split
          · split <;> exact ⟨_, rfl, rfl⟩
          · split <;> exact ⟨_, rfl, rfl⟩
    · exact ⟨_, rfl, rfl⟩

/-- Witness of C20: the one-byte paths `/` and `x` and a path whose first
byte is not `/` all return a result. -/
theorem C20_keyForPath_total_on_nonempty_witness :
    (∃ r : KeyResult, defaultPrefixMap.KeyForPathIndexed (ascii "/") = .ok r ∧
      defaultPrefixMap.KeyForPath (ascii "/") = .ok r) ∧
    (∃ r : KeyResult, defaultPrefixMap.KeyForPathIndexed (ascii "x") = .ok r ∧
      defaultPrefixMap.KeyForPath (ascii "x") = .ok r) ∧
    (∃ r : KeyResult,
      defaultPrefixMap.KeyForPathIndexed (ascii "xkubernetes.io/pods/default/p1") = .ok r ∧
      defaultPrefixMap.KeyForPath (ascii "xkubernetes.io/pods/default/p1") = .ok r) :=
  ⟨(C20_keyForPath_total_on_nonempty defaultPrefixMap).1 (ascii "/") (by decide),
    (C20_keyForPath_total_on_nonempty defaultPrefixMap).1 (ascii "x") (by decide),
    (C20_keyForPath_total_on_nonempty defaultPrefixMap).1
      (ascii "xkubernetes.io/pods/default/p1") (by decide)⟩

/-! ## Archive indexer, continued -/

/-- C11: after a successful `Update` on any archive, the scan of the versions
index under `(resource, namespace, name)` holds exactly the key
`(resource, namespace, name, index)`, whose value is empty; the event-log
key `(index, resource, namespace, name, [1])` holds the payload; and when
`uid` is non-empty the key `(uid)` holds the encoding of `(index)`. The codec
is assumed self-delimiting. -/
theorem C11_update_postcondition (pack : Tuple → GoString) (hsd : SelfDelimiting pack)
    (b b1 : Bucket) (hb : b.Sorted) (resource namespace_ name uid : GoString) (index : Nat)
    (current : GoString) (hindex : index < 2 ^ 64)
    (h : BoltArchiver.Update pack b resource namespace_ name uid index current = .ok b1) :
    versionsScan pack b1 resource namespace_ name =
        [pack (keyByType resource namespace_ name index)] ∧
    b1.Get (pack (keyByType resource namespace_ name index)) = some [] ∧
    b1.Get (pack (keyByIndex resource namespace_ name index 1)) = some current ∧
    (uid ≠ [] → b1.Get (pack [Elem.str uid]) = some (pack [Elem.int index])) := by
  have hinj := packInjective_of_selfDelimiting hsd
  have hb1 : b1.Sorted :=
    sorted_apply (o := Op.Update resource namespace_ name uid index current) hb h
  have hT : b1.Get (pack (keyByType resource namespace_ name index)) = some [] := by
    rw [versions_after_update hsd hb hindex hindex h, if_pos rfl]
  refine ⟨?_, hT, ?_, ?_⟩
  · apply eq_singleton_of_pairwise (pairwise_versionsScan hb1 _ _ _)
    intro k
    rw [mem_versionsScan hb1]
    constructor
    · rintro ⟨hp, hg⟩
      rw [get_update hb h] at hg
      split at hg
      · rename_i h1
        rw [h1.2] at hp
        exact absurd hp (uid_not_hasPrefix_triple hsd _ _ _ _)
      · split at hg
        · rename_i h2; exact h2
        · have hp2 := hasPrefix_trans hp (pair_hasPrefix_triple hsd resource namespace_ name)
          rw [if_pos hp2] at hg
          exact absurd rfl hg
    · intro hk
      subst hk
      refine ⟨versions_hasPrefix_triple hsd _ _ _ hindex, ?_⟩
      rw [hT]; exact Option.some_ne_none _
  · rw [get_update hb h]
    have h1 : ¬ (uid.length ≠ 0 ∧
        pack (keyByIndex resource namespace_ name index 1) = pack [Elem.str uid]) :=
      fun hh => index_ne_uid hinj 1 hindex hh.2
    have h2 : ¬ pack (keyByIndex resource namespace_ name index 1) =
        pack (keyByType resource namespace_ name index) :=
      fun hh => versions_ne_index hinj 1 hindex hindex hh.symm
    have h3 : ¬ HasPrefix (pack (keyByIndex resource namespace_ name index 1))
        (pack [Elem.str resource, Elem.str namespace_]) = true :=
      tagsDiffer_of_selfDelimiting hsd hindex _ _ _ 1 _ _ (wf_pair resource namespace_)
    rw [if_neg h1, if_neg h2, if_neg h3, if_pos rfl]
  · intro hu
    rw [get_update hb h]
    have hlen : uid.length ≠ 0 := fun h0 => hu (List.length_eq_zero.mp h0)
    rw [if_pos ⟨hlen, rfl⟩]

/-- Witness of C11: scenarios 1 and 2 on the empty archive with the modelled
codec; the versions of `p1` hold the single entry 15. -/
theorem C11_update_postcondition_witness :
    ∃ b0 b1 : Bucket,
      BoltArchiver.Create tuplePack [] (ascii "pods") (ascii "default") (ascii "p1")
          (ascii "U1") 10 payloadU1 = .ok b0 ∧
      BoltArchiver.Update tuplePack b0 (ascii "pods") (ascii "default") (ascii "p1")
          (ascii "U1") 15 payloadU1v2 = .ok b1 ∧
      versionsScan tuplePack b1 (ascii "pods") (ascii "default") (ascii "p1") =
        [tuplePack (keyByType (ascii "pods") (ascii "default") (ascii "p1") 15)] ∧
      b1.Get (tuplePack (keyByType (ascii "pods") (ascii "default") (ascii "p1") 15))
        = some [] ∧
      b1.Get (tuplePack (keyByIndex (ascii "pods") (ascii "default") (ascii "p1") 15 1))
        = some payloadU1v2 ∧
      b1.Get (tuplePack [Elem.str (ascii "U1")]) = some (tuplePack [Elem.int 15]) := by
  refine ⟨_, _, rfl, rfl, ?_⟩
  obtain ⟨h1, h2, h3, h4⟩ := C11_update_postcondition tuplePack tuplePack_selfDelimiting
    (Bucket.insert (Bucket.insert (Bucket.insert []
      (tuplePack (keyByIndex (ascii "pods") (ascii "default") (ascii "p1") 10 0)) payloadU1)
      (tuplePack (keyByType (ascii "pods") (ascii "default") (ascii "p1") 10)) [])
      (tuplePack [Elem.str (ascii "U1")]) (tuplePack [Elem.int 10]))
    _ (by decide) (ascii "pods") (ascii "default") (ascii "p1") (ascii "U1") 15 payloadU1v2
    (by decide) rfl
  exact ⟨h1, h2, h3, h4 (by decide)⟩

/-- C12: after a successful `Delete` on any archive, the event-log key
`(index, resource, namespace, name, [2])` holds the empty value, the scan of
the versions index under `(resource, namespace, name)` is empty and no key
`(resource, namespace, name, j)` exists, and when `uid` is non-empty the key
`(uid)` is absent. The codec is assumed self-delimiting. -/
theorem C12_delete_postcondition (pack : Tuple → GoString) (hsd : SelfDelimiting pack)
    (b b1 : Bucket) (hb : b.Sorted) (resource namespace_ name uid : GoString) (index : Nat)
    (hindex : index < 2 ^ 64)
    (h : BoltArchiver.Delete pack b resource namespace_ name uid index = .ok b1) :
    b1.Get (pack (keyByIndex resource namespace_ name index 2)) = some [] ∧
    versionsScan pack b1 resource namespace_ name = [] ∧
    (∀ j : Nat, j < 2 ^ 64 → b1.Get (pack (keyByType resource namespace_ name j)) = none) ∧
    (uid ≠ [] → b1.Get (pack [Elem.str uid]) = none) := by
  have hinj := packInjective_of_selfDelimiting hsd
  have hb1 : b1.Sorted := sorted_apply (o := Op.Delete resource namespace_ name uid index) hb h
  refine ⟨?_, ?_, fun j hj => versions_after_delete hsd hb hj h, ?_⟩
  · rw [get_deleteOp hb h]
    have h1 : ¬ (uid.length ≠ 0 ∧
        pack (keyByIndex resource namespace_ name index 2) = pack [Elem.str uid]) :=
      fun hh => index_ne_uid hinj 2 hindex hh.2
    have h3 : ¬ HasPrefix (pack (keyByIndex resource namespace_ name index 2))
        (pack [Elem.str resource, Elem.str namespace_]) = true :=
      tagsDiffer_of_selfDelimiting hsd hindex _ _ _ 2 _ _ (wf_pair resource namespace_)
    rw [if_neg h1, if_neg h3, if_pos rfl]
  · rw [List.eq_nil_iff_forall_not_mem]
    intro k hk
    rw [mem_versionsScan hb1] at hk
    obtain ⟨hp, hg⟩ := hk
    rw [get_deleteOp hb h] at hg
    split at hg
    · exact absurd rfl hg
    · have hp2 := hasPrefix_trans hp (pair_hasPrefix_triple hsd resource namespace_ name)
      rw [if_pos hp2] at hg
      exact absurd rfl hg
  · intro hu
    rw [get_deleteOp hb h]
    have hlen : uid.length ≠ 0 := fun h0 => hu (List.length_eq_zero.mp h0)
    rw [if_pos ⟨hlen, rfl⟩]

/-- Witness of C12: scenarios 1 and 4 on the empty archive with the modelled
codec. -/
theorem C12_delete_postcondition_witness :
    ∃ b0 b1 : Bucket,
      BoltArchiver.Create tuplePack [] (ascii "pods") (ascii "default") (ascii "p1")
          (ascii "U1") 10 payloadU1 = .ok b0 ∧
      BoltArchiver.Delete tuplePack b0 (ascii "pods") (ascii "default") (ascii "p1")
          (ascii "U1") 25 = .ok b1 ∧
      b1.Get (tuplePack (keyByIndex (ascii "pods") (ascii "default") (ascii "p1") 25 2))
        = some [] ∧
      versionsScan tuplePack b1 (ascii "pods") (ascii "default") (ascii "p1") = [] ∧
      (∀ j : Nat, j < 2 ^ 64 →
        b1.Get (tuplePack (keyByType (ascii "pods") (ascii "default") (ascii "p1") j))
          = none) ∧
      b1.Get (tuplePack [Elem.str (ascii "U1")]) = none := by
  refine ⟨_, _, rfl, rfl, ?_⟩
  obtain ⟨h1, h2, h3, h4⟩ := C12_delete_postcondition tuplePack tuplePack_selfDelimiting
    (Bucket.insert (Bucket.insert (Bucket.insert []
      (tuplePack (keyByIndex (ascii "pods") (ascii "default") (ascii "p1") 10 0)) payloadU1)
      (tuplePack (keyByType (ascii "pods") (ascii "default") (ascii "p1") 10)) [])
      (tuplePack [Elem.str (ascii "U1")]) (tuplePack [Elem.int 10]))
    _ (by decide) (ascii "pods") (ascii "default") (ascii "p1") (ascii "U1") 25
    (by decide) rfl
  exact ⟨h1, h2, h3, h4 (by decide)⟩

/-- C19: for any archive and any successful `Create`, `Update` or `Delete`,
an event-log key `(i, resource, namespace, name, op)` that was present is
still present, its value is unchanged unless it is the event-log key the
operation writes, and that key holds the operation's value; the range
deletion in the versions index removes no event-log entry. The codec is
assumed to tag integers and strings differently. -/
theorem C19_event_log_accumulates (pack : Tuple → GoString) (htag : TagsDiffer pack)
    (b b1 : Bucket) (hb : b.Sorted) (o : Op) (h : o.apply pack b = .ok b1)
    (resource namespace_ name : GoString) (i u : Nat) :
    (b.Get (pack (keyByIndex resource namespace_ name i u)) ≠ none →
      b1.Get (pack (keyByIndex resource namespace_ name i u)) ≠ none) ∧
    (pack (keyByIndex resource namespace_ name i u) ≠ pack o.logTuple →
      b1.Get (pack (keyByIndex resource namespace_ name i u)) =
        b.Get (pack (keyByIndex resource namespace_ name i u))) ∧
    b1.Get (pack o.logTuple) = some o.logValue := by
  have hkey := apply_tagged_key htag hb h i
    [Elem.str resource, Elem.str namespace_, Elem.str name, Elem.bytes [u]]
  have hlog : b1.Get (pack o.logTuple) = some o.logValue := by
    cases o with
    | Create r ns n uid j cur =>
      have := apply_tagged_key htag hb h j
        [Elem.str r, Elem.str ns, Elem.str n, Elem.bytes [0]]
      exact this.trans (if_pos rfl)
    | Update r ns n uid j cur =>
      have := apply_tagged_key htag hb h j
        [Elem.str r, Elem.str ns, Elem.str n, Elem.bytes [1]]
      exact this.trans (if_pos rfl)
    | Delete r ns n uid j =>
      have := apply_tagged_key htag hb h j
        [Elem.str r, Elem.str ns, Elem.str n, Elem.bytes [2]]
      exact this.trans (if_pos rfl)
  refine ⟨fun hpre => ?_, fun hne => ?_, hlog⟩
  · show b1.Get (pack (Elem.int i ::
      [Elem.str resource, Elem.str namespace_, Elem.str name, Elem.bytes [u]])) ≠ none
    rw [hkey]
    split
    · exact Option.some_ne_none _
    · exact hpre
  · exact hkey.trans (if_neg hne)

/-- Witness of C19: the `Update` of scenario 2 after the `Create` of scenario
1 keeps the event-log entry `(10, pods, default, p1, [0])` with its payload
and adds `(15, pods, default, p1, [1])`. -/
theorem C19_event_log_accumulates_witness :
    ∃ b0 b1 : Bucket,
      BoltArchiver.Create tuplePack [] (ascii "pods") (ascii "default") (ascii "p1")
          (ascii "U1") 10 payloadU1 = .ok b0 ∧
      BoltArchiver.Update tuplePack b0 (ascii "pods") (ascii "default") (ascii "p1")
          (ascii "U1") 15 payloadU1v2 = .ok b1 ∧
      b1.Get (tuplePack (keyByIndex (ascii "pods") (ascii "default") (ascii "p1") 10 0)) ≠
        none ∧
      b1.Get (tuplePack (keyByIndex (ascii "pods") (ascii "default") (ascii "p1") 10 0)) =
        b0.Get (tuplePack (keyByIndex (ascii "pods") (ascii "default") (ascii "p1") 10 0)) ∧
      b1.Get (tuplePack (keyByIndex (ascii "pods") (ascii "default") (ascii "p1") 15 1)) =
        some payloadU1v2 := by
  refine ⟨_, _, rfl, rfl, ?_⟩
  exact ⟨(C19_event_log_accumulates tuplePack tuplePack_tagsDiffer _ _ (by decide)
      (Op.Update (ascii "pods") (ascii "default") (ascii "p1") (ascii "U1") 15 payloadU1v2)
      rfl (ascii "pods") (ascii "default") (ascii "p1") 10 0).1 (by decide),
    (C19_event_log_accumulates tuplePack tuplePack_tagsDiffer _ _ (by decide)
      (Op.Update (ascii "pods") (ascii "default") (ascii "p1") (ascii "U1") 15 payloadU1v2)
      rfl (ascii "pods") (ascii "default") (ascii "p1") 10 0).2.1 (by decide),
    (C19_event_log_accumulates tuplePack tuplePack_tagsDiffer _ _ (by decide)
      (Op.Update (ascii "pods") (ascii "default") (ascii "p1") (ascii "U1") 15 payloadU1v2)
      rfl (ascii "pods") (ascii "default") (ascii "p1") 10 0).2.2⟩

/-- C13: starting from the empty archive, after a sequence of successful
operations that all carry a non-empty uid, for the last operation `o` of the
sequence that carries a given uid: the key `(uid)` is present exactly when
`o` is a `Create` or an `Update`, and its value then is the encoding of
`(o.index)`. The codec is assumed self-delimiting (hence injective, with
distinct integer and string tags). -/
theorem C13_uid_liveness (pack : Tuple → GoString) (hsd : SelfDelimiting pack)
    (ops : List Op) (b : Bucket) (hindex : ∀ o ∈ ops, o.index < 2 ^ 64)
    (huid : ∀ o ∈ ops, o.uid ≠ []) (hrun : runOps pack [] ops = .ok b)
    (pre : List Op) (o : Op) (post : List Op) (hops : ops = pre ++ o :: post)
    (hlast : ∀ o' ∈ post, o'.uid ≠ o.uid) :
    (b.Get (pack [Elem.str o.uid]) ≠ none ↔ o.isWrite = true) ∧
    (o.isWrite = true → b.Get (pack [Elem.str o.uid]) = some (pack [Elem.int o.index])) := by
  subst hops
  have hnil : Bucket.Sorted [] := List.Pairwise.nil
  rw [runOps_append] at hrun
  split at hrun
  · cases hrun
  · rename_i bpre hpre
    simp only [runOps] at hrun
    split at hrun
    · cases hrun
    · rename_i bo hbo
      have hsp : bpre.Sorted := sorted_runOps hnil hpre
      have hso : bo.Sorted := sorted_apply hsp hbo
      have hfin : b.Get (pack [Elem.str o.uid]) =
          if o.isWrite = true then some (pack [Elem.int o.index]) else none := by
        rw [uid_frame_run hsd hso
          (fun o' ho' => hindex o' (List.mem_append_right _ (List.mem_cons_of_mem _ ho')))
          hlast hrun]
        exact uid_after hsp (huid o (by simp)) hbo
      rw [hfin]
      by_cases hw : o.isWrite = true
      · simp [hw]
      · simp [hw]

/-- Witness of C13: after the life of `p1` (uid `U1`, deleted last) and the
create of `p2` (uid `U2`), the key `(U1)` is absent and the key `(U2)` holds
the encoding of `(17)`. -/
theorem C13_uid_liveness_witness :
    ∃ b : Bucket, runOps tuplePack [] opsLifecycle = .ok b ∧
      b.Get (tuplePack [Elem.str (ascii "U1")]) = none ∧
      b.Get (tuplePack [Elem.str (ascii "U2")]) = some (tuplePack [Elem.int 17]) := by
  refine ⟨_, rfl, ?_, ?_⟩
  · have hw := C13_uid_liveness tuplePack tuplePack_selfDelimiting opsLifecycle _
      (by decide) (by decide) rfl (opsLifecycle.take 3)
      (Op.Delete (ascii "pods") (ascii "default") (ascii "p1") (ascii "U1") 25) [] rfl
      (by decide)
    have hn : ¬ (Op.Delete (ascii "pods") (ascii "default") (ascii "p1") (ascii "U1")
        25).isWrite = true := by decide
    exact Classical.not_not.mp (fun hne => hn (hw.1.mp hne))
  · exact (C13_uid_liveness tuplePack tuplePack_selfDelimiting opsLifecycle _
      (by decide) (by decide) rfl (opsLifecycle.take 2)
      (Op.Create (ascii "pods") (ascii "other") (ascii "p2") (ascii "U2") 17 [])
      (opsLifecycle.drop 3) rfl (by decide)).2 rfl

/-! ## Reposition arithmetic -/

/-- C21: after a watch failure that reports the etcd index `E` (a `uint64`),
with `w` the window already shrunk, the new `recentIndex` is `E - w` when
`E ≥ w` and the wrapped value `E + 2 ^ 64 - w`, which is above `E`, when
`E < w`; so the new `recentIndex` is at most `E` exactly when `E ≥ w`. A
failure that is not an etcd error replaces the window by `⌊9 w / 10⌋`, which
is not above the old one, and leaves `recentIndex` as it was. -/
theorem C21_reposition_arithmetic (st : RunState) (E : Nat) (hE : E < 2 ^ 64) :
    ((Run.watcher st (WatchEnd.etcdError E)).snapshotWindow ≤ E →
      (Run.watcher st (WatchEnd.etcdError E)).recentIndex =
        E - (Run.watcher st (WatchEnd.etcdError E)).snapshotWindow) ∧
    (E < (Run.watcher st (WatchEnd.etcdError E)).snapshotWindow →
      (Run.watcher st (WatchEnd.etcdError E)).recentIndex =
          E + 2 ^ 64 - (Run.watcher st (WatchEnd.etcdError E)).snapshotWindow ∧
        E < (Run.watcher st (WatchEnd.etcdError E)).recentIndex) ∧
    ((Run.watcher st (WatchEnd.etcdError E)).recentIndex ≤ E ↔
      (Run.watcher st (WatchEnd.etcdError E)).snapshotWindow ≤ E) ∧
    (Run.watcher st WatchEnd.otherError).recentIndex = st.recentIndex ∧
    (Run.watcher st WatchEnd.otherError).snapshotWindow = mul64 st.snapshotWindow 9 / 10 ∧
    (Run.watcher st WatchEnd.otherError).snapshotWindow ≤ st.snapshotWindow := by
  have e : (2 : Nat) ^ 64 = 18446744073709551616 := by norm_num
  have hw : mul64 st.snapshotWindow 9 / 10 < 18446744073709551616 := by
    have h1 : mul64 st.snapshotWindow 9 < 18446744073709551616 := by
      unfold mul64; rw [e]; exact Nat.mod_lt _ (by decide)
    omega
  have hle : mul64 st.snapshotWindow 9 / 10 ≤ st.snapshotWindow := by
    have h1 : mul64 st.snapshotWindow 9 ≤ st.snapshotWindow * 9 := by
      unfold mul64; exact Nat.mod_le _ _
    omega
  have hidx : (Run.watcher st (WatchEnd.etcdError E)).recentIndex =
      sub64 E (mul64 st.snapshotWindow 9 / 10) := rfl
  have hwin : (Run.watcher st (WatchEnd.etcdError E)).snapshotWindow =
      mul64 st.snapshotWindow 9 / 10 := rfl
  have hwin2 : (Run.watcher st WatchEnd.otherError).snapshotWindow =
      mul64 st.snapshotWindow 9 / 10 := rfl
  rw [hidx, hwin, hwin2]
  generalize mul64 st.snapshotWindow 9 / 10 = w at hw hle
  rw [e] at hE
  simp only [sub64, e]
  have hmod : w % 18446744073709551616 = w := Nat.mod_eq_of_lt hw
  rw [hmod]
  refine ⟨fun h => ?_, fun h => ⟨?_, ?_⟩, ⟨fun h => ?_, fun h => ?_⟩, rfl, trivial, hle⟩ <;> omega

/-- Witness of C21: from the state after a horizon of 10000 (window 1000,
shrunk to 900), a failure reporting index 12000 repositions to 11100, and a
failure reporting index 500 wraps around to `500 + 2 ^ 64 - 900`. -/
theorem C21_reposition_arithmetic_witness :
    (Run.watcher (Run.init 10000) (WatchEnd.etcdError 12000)).recentIndex =
        12000 - (Run.watcher (Run.init 10000) (WatchEnd.etcdError 12000)).snapshotWindow ∧
    ((Run.watcher (Run.init 10000) (WatchEnd.etcdError 500)).recentIndex =
        500 + 2 ^ 64 - (Run.watcher (Run.init 10000) (WatchEnd.etcdError 500)).snapshotWindow ∧
      500 < (Run.watcher (Run.init 10000) (WatchEnd.etcdError 500)).recentIndex) :=
  ⟨(C21_reposition_arithmetic (Run.init 10000) 12000 (by decide)).1 (by decide),
    (C21_reposition_arithmetic (Run.init 10000) 500 (by decide)).2.1 (by decide)⟩

end KubeArchiver
